import Mathlib

/-!
Verification of the akshar-ime core (Romanized-to-Devanagari IME engine).

The Rust sources are shallowly embedded.  Rust strings are UTF-8 byte
sequences and all string operations in the sources (trie keys, SymSpell
delete variants, slicing, truncation) are byte oriented, so strings are
modelled as `List Nat` of byte values; `bytesOf` converts a Lean string
literal to its UTF-8 bytes.  Rust HashMap / HashSet containers are
modelled as insertion-ordered association lists / duplicate-free lists,
which matches their contents exactly (iteration order of the Rust
containers is unspecified; the model fixes insertion order).  Rust
panics (out-of-bounds indexing, char-boundary violations in
String::remove and str slicing) are modelled by returning `none`.
-/

namespace Akshar

/-- UTF-8 encoding of a Unicode scalar value, as byte values. -/
def utf8Char (c : Nat) : List Nat :=
  if c < 0x80 then [c]
  else if c < 0x800 then [0xC0 + c / 64, 0x80 + c % 64]
  else if c < 0x10000 then [0xE0 + c / 4096, 0x80 + c / 64 % 64, 0x80 + c % 64]
  else [0xF0 + c / 262144, 0x80 + c / 4096 % 64, 0x80 + c / 64 % 64, 0x80 + c % 64]

/-- The UTF-8 bytes of a string, the representation of a Rust `String`. -/
def bytesOf (s : String) : List Nat :=
  (s.data.map (fun c => utf8Char c.toNat)).flatten

/-- Byte length of the UTF-8 character starting with lead byte `b`
(how Rust `str::chars` steps through a valid string). -/
def charLen (b : Nat) : Nat :=
  if b < 0x80 then 1
  else if b < 0xC0 then 1
  else if b < 0xE0 then 2
  else if b < 0xF0 then 3
  else 4

/-- A byte position is a char boundary iff its byte is not a UTF-8
continuation byte (Rust `str::is_char_boundary` on a valid string). -/
def isCharBoundaryByte (b : Nat) : Bool :=
  decide (b < 0x80) || decide (0xC0 ≤ b)

-- ---------------------------------------------------------------------------
-- src/core/converter.rs : RomanizationEngine
-- ---------------------------------------------------------------------------

/-- Result of matching a Roman token (converter.rs `MatchResult`,
with the `MapKind` determined by the constructor). -/
inductive TokenMatch where
  | symbol (out : List Nat)
  | consonant (out : List Nat)
  | vowel (full matra : List Nat)
deriving DecidableEq

/-- converter.rs `consonants` table (construction order; the source lists
`("ph", "फ")` twice with the same value, which is a no-op in a map). -/
def consonantsTable : List (List Nat × List Nat) :=
  [ (bytesOf "k", bytesOf "क"), (bytesOf "kh", bytesOf "ख"),
    (bytesOf "g", bytesOf "ग"), (bytesOf "gh", bytesOf "घ"),
    (bytesOf "ng", bytesOf "ङ"),
    (bytesOf "ch", bytesOf "च"), (bytesOf "c", bytesOf "च"),
    (bytesOf "chh", bytesOf "छ"), (bytesOf "x", bytesOf "छ"),
    (bytesOf "j", bytesOf "ज"), (bytesOf "jh", bytesOf "झ"),
    (bytesOf "ny", bytesOf "ञ"), (bytesOf "jny", bytesOf "ज्ञ"),
    (bytesOf "T", bytesOf "ट"), (bytesOf "Th", bytesOf "ठ"),
    (bytesOf "D", bytesOf "ड"), (bytesOf "Dh", bytesOf "ढ"),
    (bytesOf "N", bytesOf "ण"),
    (bytesOf "t", bytesOf "त"), (bytesOf "th", bytesOf "थ"),
    (bytesOf "d", bytesOf "द"), (bytesOf "dh", bytesOf "ध"),
    (bytesOf "n", bytesOf "न"),
    (bytesOf "p", bytesOf "प"), (bytesOf "ph", bytesOf "फ"),
    (bytesOf "b", bytesOf "ब"), (bytesOf "bh", bytesOf "भ"),
    (bytesOf "m", bytesOf "म"),
    (bytesOf "y", bytesOf "य"), (bytesOf "r", bytesOf "र"),
    (bytesOf "l", bytesOf "ल"), (bytesOf "w", bytesOf "व"),
    (bytesOf "v", bytesOf "व"),
    (bytesOf "sh", bytesOf "श"), (bytesOf "S", bytesOf "ष"),
    (bytesOf "s", bytesOf "स"), (bytesOf "h", bytesOf "ह"),
    (bytesOf "ksh", bytesOf "क्ष"), (bytesOf "kSh", bytesOf "क्ष"),
    (bytesOf "tra", bytesOf "त्र"), (bytesOf "tR", bytesOf "त्र"),
    (bytesOf "jnya", bytesOf "ज्ञ"), (bytesOf "GY", bytesOf "ज्ञ"),
    (bytesOf "q", bytesOf "क़"), (bytesOf "K", bytesOf "ख़"),
    (bytesOf "G", bytesOf "ग़"),
    (bytesOf "z", bytesOf "ज़"), (bytesOf "Z", bytesOf "झ़"),
    (bytesOf "Rh", bytesOf "ढ़"), (bytesOf "Rf", bytesOf "ड़"),
    (bytesOf "f", bytesOf "फ़"), (bytesOf "ph", bytesOf "फ"),
    (bytesOf "L", bytesOf "ळ"), (bytesOf "nN", bytesOf "ऩ"),
    (bytesOf "rR", bytesOf "ऱ"), (bytesOf "lL", bytesOf "ऴ"),
    (bytesOf "^^", bytesOf "‌"), (bytesOf "^_", bytesOf "‍") ]

/-- converter.rs `vowels` table: Roman token to (full form, matra). -/
def vowelsTable : List (List Nat × (List Nat × List Nat)) :=
  [ (bytesOf "a", (bytesOf "अ", bytesOf "")),
    (bytesOf "aa", (bytesOf "आ", bytesOf "ा")),
    (bytesOf "A", (bytesOf "आ", bytesOf "ा")),
    (bytesOf "i", (bytesOf "इ", bytesOf "ि")),
    (bytesOf "ii", (bytesOf "ई", bytesOf "ी")),
    (bytesOf "ee", (bytesOf "ई", bytesOf "ी")),
    (bytesOf "I", (bytesOf "ई", bytesOf "ी")),
    (bytesOf "u", (bytesOf "उ", bytesOf "ु")),
    (bytesOf "uu", (bytesOf "ऊ", bytesOf "ू")),
    (bytesOf "oo", (bytesOf "ऊ", bytesOf "ू")),
    (bytesOf "U", (bytesOf "ऊ", bytesOf "ू")),
    (bytesOf "e", (bytesOf "ए", bytesOf "े")),
    (bytesOf "ai", (bytesOf "ऐ", bytesOf "ै")),
    (bytesOf "ae", (bytesOf "ऐ", bytesOf "ै")),
    (bytesOf "o", (bytesOf "ओ", bytesOf "ो")),
    (bytesOf "au", (bytesOf "औ", bytesOf "ौ")),
    (bytesOf "ao", (bytesOf "औ", bytesOf "ौ")),
    (bytesOf "ri", (bytesOf "ऋ", bytesOf "ृ")),
    (bytesOf "R", (bytesOf "ऋ", bytesOf "ृ")),
    (bytesOf "rii", (bytesOf "ॠ", bytesOf "ॄ")),
    (bytesOf "RR", (bytesOf "ॠ", bytesOf "ॄ")),
    (bytesOf "rI", (bytesOf "ॠ", bytesOf "ॄ")),
    (bytesOf "li", (bytesOf "ऌ", bytesOf "ॢ")),
    (bytesOf "L^", (bytesOf "ऌ", bytesOf "ॢ")),
    (bytesOf "lii", (bytesOf "ॡ", bytesOf "ॣ")),
    (bytesOf "LL", (bytesOf "ॡ", bytesOf "ॣ")),
    (bytesOf "lI", (bytesOf "ॡ", bytesOf "ॣ")),
    (bytesOf "eN", (bytesOf "ऍ", bytesOf "ॅ")),
    (bytesOf "E", (bytesOf "ऍ", bytesOf "ॅ")),
    (bytesOf "oN", (bytesOf "ऑ", bytesOf "ॉ")),
    (bytesOf "O", (bytesOf "ऑ", bytesOf "ॉ")),
    (bytesOf "e~", (bytesOf "ऎ", bytesOf "ॆ")),
    (bytesOf "o~", (bytesOf "ऒ", bytesOf "ॊ")),
    (bytesOf "aW", (bytesOf "ॏ", bytesOf "ॏ")),
    (bytesOf "ue", (bytesOf "उे", bytesOf "ॖ")),
    (bytesOf "uue", (bytesOf "उॆ", bytesOf "ॗ")),
    (bytesOf "M", (bytesOf "अं", bytesOf "ं")),
    (bytesOf "am", (bytesOf "अं", bytesOf "ं")),
    (bytesOf "An", (bytesOf "अं", bytesOf "ं")),
    (bytesOf "H", (bytesOf "अः", bytesOf "ः")),
    (bytesOf "ah", (bytesOf "अः", bytesOf "ः")),
    (bytesOf "aH", (bytesOf "अः", bytesOf "ः")),
    (bytesOf "~", (bytesOf "अँ", bytesOf "ँ")),
    (bytesOf "N~", (bytesOf "अँ", bytesOf "ँ")),
    (bytesOf "~^", (bytesOf "ऀ", bytesOf "ऀ")),
    (bytesOf "e^", (bytesOf "ए", bytesOf "ॕ")) ]

/-- converter.rs `symbols` table. -/
def symbolsTable : List (List Nat × List Nat) :=
  [ (bytesOf ".", bytesOf "।"), (bytesOf "..", bytesOf "।।"),
    (bytesOf "...", bytesOf "..."),
    (bytesOf "?", bytesOf "?"), (bytesOf "!", bytesOf "!"),
    (bytesOf ",", bytesOf ","), (bytesOf ";", bytesOf ";"),
    (bytesOf ":", bytesOf ":"),
    (bytesOf "OM", bytesOf "ॐ"), (bytesOf "Om", bytesOf "ॐ"),
    (bytesOf "AUM", bytesOf "ॐ"),
    (bytesOf "'", bytesOf "ऽ"), (bytesOf "@", bytesOf "ॐ"),
    (bytesOf "0", bytesOf "०"), (bytesOf "1", bytesOf "१"),
    (bytesOf "2", bytesOf "२"), (bytesOf "3", bytesOf "३"),
    (bytesOf "4", bytesOf "४"), (bytesOf "5", bytesOf "५"),
    (bytesOf "6", bytesOf "६"), (bytesOf "7", bytesOf "७"),
    (bytesOf "8", bytesOf "८"), (bytesOf "9", bytesOf "९"),
    (bytesOf "|", bytesOf "।"), (bytesOf "||", bytesOf "।।"),
    (bytesOf "_", bytesOf "्") ]

/-- The virama / halanta byte sequence (U+094D). -/
def halBytes : List Nat := bytesOf "्"

/-- converter.rs `match_longest` restricted to one candidate token length:
symbols are tried first, then consonants, then vowels. -/
def matchAt (s : List Nat) (n : Nat) : Option (List Nat × TokenMatch) :=
  let tok := s.take n
  match List.lookup tok symbolsTable with
  | some v => some (tok, TokenMatch.symbol v)
  | none =>
    match List.lookup tok consonantsTable with
    | some v => some (tok, TokenMatch.consonant v)
    | none =>
      match List.lookup tok vowelsTable with
      | some p => some (tok, TokenMatch.vowel p.1 p.2)
      | none => none

/-- Longest-prefix match: token lengths are tried from `n` down to 1. -/
def matchLongestAux (s : List Nat) : Nat → Option (List Nat × TokenMatch)
  | 0 => none
  | n + 1 =>
    match matchAt s (n + 1) with
    | some r => some r
    | none => matchLongestAux s n

/-- converter.rs `match_longest` on a byte slice. -/
def match_longest (s : List Nat) : Option (List Nat × TokenMatch) :=
  matchLongestAux s s.length

/-- FST state (converter.rs `State`). -/
inductive FstState where
  | start
  | halanta
  | syllable
deriving DecidableEq

/-- Drop a trailing virama if present (the repeated
`if result.ends_with(HALANTA) { result.truncate(...) }` idiom). -/
def trimHal (res : List Nat) : List Nat :=
  if halBytes.isSuffixOf res then res.take (res.length - 3) else res

/-- The while loop of converter.rs `transliterate_base`.  The fuel is the
input byte length; every iteration consumes at least one byte, so the
fuel never runs out when started at `input.length`. -/
def runFstAux : Nat → List Nat → List Nat → FstState → List Nat × FstState
  | 0, _, res, st => (res, st)
  | _ + 1, [], res, st => (res, st)
  | fuel + 1, b :: rest, res, st =>
    let input := b :: rest
    match match_longest (input.take 4) with
    | some (tok, TokenMatch.symbol out) =>
      match st with
      | FstState.start | FstState.syllable =>
        runFstAux fuel (input.drop tok.length) (res ++ out) FstState.start
      | FstState.halanta =>
        runFstAux fuel (input.drop tok.length) (trimHal res ++ out) FstState.start
    | some (tok, TokenMatch.consonant out) =>
      match st with
      | FstState.start | FstState.syllable =>
        runFstAux fuel (input.drop tok.length) (res ++ out ++ halBytes) FstState.halanta
      | FstState.halanta =>
        if tok = bytesOf "y" ∨ tok = bytesOf "r" then
          runFstAux fuel (input.drop tok.length) (res ++ out) FstState.halanta
        else
          runFstAux fuel (input.drop tok.length) (res ++ out ++ halBytes) FstState.halanta
    | some (tok, TokenMatch.vowel full matra) =>
      match st with
      | FstState.start | FstState.syllable =>
        runFstAux fuel (input.drop tok.length) (res ++ full) FstState.syllable
      | FstState.halanta =>
        runFstAux fuel (input.drop tok.length) (trimHal res ++ matra) FstState.syllable
    | none =>
      runFstAux fuel (input.drop (charLen b)) (trimHal res ++ input.take (charLen b))
        FstState.start

/-- Run the FST over a whole Roman byte string, returning the output
buffer and the final state. -/
def runFst (roman : List Nat) : List Nat × FstState :=
  runFstAux roman.length roman [] FstState.start

/-- converter.rs `transliterate_base`: run the FST, then drop a trailing
virama when `force_schwa_deletion` is set and the buffer ends in one. -/
def transliterate_base (roman : List Nat) (forceSchwaDeletion : Bool) : List Nat :=
  let res := (runFst roman).1
  if forceSchwaDeletion && halBytes.isSuffixOf res then res.take (res.length - 3) else res

/-- converter.rs `transliterate_primary`. -/
def transliterate_primary (roman : List Nat) : List Nat :=
  if roman = [] then [] else transliterate_base roman true

/-- Insert into a HashSet modelled as a duplicate-free list in insertion
order (Rust HashSet iteration order is unspecified; the model fixes it). -/
def insertDedup {α : Type} [DecidableEq α] (l : List α) (x : α) : List α :=
  if x ∈ l then l else l ++ [x]

/-- The candidate-set insertion idiom of `generate_candidates`:
`if variant != primary { candidates.insert(variant) }`. -/
def insertVariant (primary : List Nat) (cands : List (List Nat)) (v : List Nat) :
    List (List Nat) :=
  if v = primary then cands else insertDedup cands v

/-- The medial vowel promotion loop of `generate_candidates`: scan for the
first consonant token followed by a single `a` (not `aa`) and return the
Roman string with that `a` doubled.  Fuel is the byte length of the
remaining input; each iteration consumes at least one byte. -/
def promoteLoop : Nat → List Nat → List Nat → Option (List Nat)
  | 0, _, _ => none
  | _ + 1, [], _ => none
  | fuel + 1, b :: rest, pre =>
    let temp := b :: rest
    match match_longest temp with
    | some (tok, m) =>
      let pre2 := pre ++ tok
      let remaining := temp.drop tok.length
      match m with
      | TokenMatch.consonant _ =>
        if remaining.head? = some 97 ∧ remaining.take 2 ≠ [97, 97] then
          some (pre2 ++ [97] ++ remaining)
        else
          promoteLoop fuel remaining pre2
      | _ => promoteLoop fuel remaining pre2
    | none => promoteLoop fuel temp.tail (pre ++ temp.take (charLen b))

/-- converter.rs `find_last_vowel_boundary`: try split positions from
`roman.length - 1` down to 1. -/
def flvbAux (roman : List Nat) : Nat → Option Nat
  | 0 => none
  | n + 1 =>
    if (List.lookup (roman.drop (n + 1)) vowelsTable).isSome then some (n + 1)
    else flvbAux roman n

/-- converter.rs `find_last_vowel_boundary`. -/
def find_last_vowel_boundary (roman : List Nat) : Option Nat :=
  flvbAux roman (roman.length - 1)

/-- converter.rs `generate_candidates`: the primary transliteration
followed by the heuristic variants, de-duplicated, primary first. -/
def generate_candidates (roman : List Nat) : List (List Nat) :=
  if roman = [] then []
  else
    match List.lookup roman symbolsTable with
    | some sym => [sym]
    | none =>
      let primary := transliterate_primary roman
      let cands : List (List Nat) := [primary]
      -- Heuristic 1: final single 'a': variant without schwa deletion.
      let cands :=
        if [97].isSuffixOf roman ∧ ¬ [97, 97].isSuffixOf roman then
          insertVariant primary cands (transliterate_base roman false)
        else cands
      -- Medial vowel promotion heuristic.
      let cands :=
        match promoteLoop roman.length roman [] with
        | some promoted => insertVariant primary cands (transliterate_primary promoted)
        | none => cands
      -- Heuristic 2: split final "ai" as "aa" + independent i.
      let cands :=
        if [97, 105].isSuffixOf roman ∧ roman.length > 2 then
          match List.lookup (bytesOf "i") vowelsTable with
          | some p =>
            insertVariant primary cands
              (transliterate_primary (roman.take (roman.length - 2) ++ [97, 97]) ++ p.1)
          | none => cands
        else cands
      -- Heuristic 3: split final "au" as "aa" + independent u.
      let cands :=
        if [97, 117].isSuffixOf roman ∧ roman.length > 2 ∧
            roman.take (roman.length - 2) ≠ [] then
          match List.lookup (bytesOf "u") vowelsTable with
          | some p =>
            insertVariant primary cands
              (transliterate_primary (roman.take (roman.length - 2) ++ [97, 97]) ++ p.1)
          | none => cands
        else cands
      -- Heuristic 4: leading "aa" followed by a vowel token.
      let cands :=
        if roman.take 2 = [97, 97] ∧ roman.length > 2 then
          match List.lookup (roman.drop 2) vowelsTable with
          | some p =>
            match List.lookup (bytesOf "aa") vowelsTable with
            | some paa => insertVariant primary cands (paa.1 ++ p.1)
            | none => cands
          | none => cands
        else cands
      -- Heuristic 5: split at the last vowel boundary.
      let cands :=
        match find_last_vowel_boundary roman with
        | some pos =>
          if 0 < pos ∧ pos < roman.length then
            match List.lookup (roman.drop pos) vowelsTable with
            | some p =>
              insertVariant primary cands (transliterate_primary (roman.take pos) ++ p.1)
            | none => cands
          else cands
        | none => cands
      -- result: primary first, then the remaining candidates, de-duplicated.
      cands.foldl (fun r c => if c ∈ r then r else r ++ [c]) [primary]

-- ---------------------------------------------------------------------------
-- src/core/types.rs and src/core/trie.rs : WordMetadata, TrieBuilder
-- ---------------------------------------------------------------------------

/-- types.rs `WordMetadata` (the `variants` HashSet is an insertion-ordered
duplicate-free list). -/
structure WordMetadata where
  nepali : List Nat
  frequency : Nat
  variants : List (List Nat)
deriving DecidableEq, Repr

/-- trie.rs `BuilderNode`; `children` is a byte-to-node-index map in
insertion order with unique byte keys. -/
structure BuilderNode where
  children : List (Nat × Nat)
  word_id : Option Nat
  max_freq_in_subtree : Nat
deriving DecidableEq, Repr

/-- trie.rs `BuilderNode::new`. -/
def BuilderNode.new : BuilderNode :=
  { children := [], word_id := none, max_freq_in_subtree := 0 }

/-- trie.rs `TrieBuilder`. -/
structure TrieBuilder where
  nodes : List BuilderNode
  metadata_store : List WordMetadata
deriving DecidableEq, Repr

/-- trie.rs `TrieBuilder::new`. -/
def TrieBuilder.new : TrieBuilder :=
  { nodes := [BuilderNode.new], metadata_store := [] }

/-- trie.rs `find_word_id_by_nepali`: position of the first metadata entry
with the given Devanagari string. -/
def TrieBuilder.find_word_id_by_nepali (t : TrieBuilder) (nep : List Nat) : Option Nat :=
  t.metadata_store.findIdx? (fun meta => decide (meta.nepali = nep))

/-- trie.rs `get_or_create_metadata`, returning the id and the updated
trie (the Rust method mutates in place). -/
def TrieBuilder.get_or_create_metadata (t : TrieBuilder) (nep : List Nat) :
    Nat × TrieBuilder :=
  match t.find_word_id_by_nepali nep with
  | some id => (id, t)
  | none =>
    (t.metadata_store.length,
     { t with metadata_store :=
        t.metadata_store ++ [{ nepali := nep, frequency := 0, variants := [] }] })

/-- The descent loop of trie.rs `insert`: walk the byte path, creating
missing nodes, and collect the path of visited node indices (the Rust
`path` vector starts as `vec![0]`).  `none` models the out-of-bounds
panic on a dangling child index. -/
def descend (nodes : List BuilderNode) (nodeIdx : Nat) (path : List Nat) :
    List Nat → Option (List BuilderNode × Nat × List Nat)
  | [] => some (nodes, nodeIdx, path)
  | b :: rest =>
    match nodes.get? nodeIdx with
    | none => none
    | some node =>
      match List.lookup b node.children with
      | some c => descend nodes c (path ++ [c]) rest
      | none =>
        let newId := nodes.length
        let nodes' := List.modify
          (fun n => { n with children := n.children ++ [(b, newId)] }) nodeIdx
          (nodes ++ [BuilderNode.new])
        descend nodes' newId (path ++ [newId]) rest

/-- Maximum of the stored `max_freq_in_subtree` over a children list
(trie.rs collects `child_max_freqs` and folds `max` over them). -/
def childrenMax (nodes : List BuilderNode) (cs : List (Nat × Nat)) : Option Nat :=
  cs.foldlM
    (fun acc p =>
      match nodes.get? p.2 with
      | some n => some (max acc n.max_freq_in_subtree)
      | none => none)
    0

/-- The upward propagation loop of trie.rs `insert`: recompute
`max_freq_in_subtree` leaf-first along the (reversed) path, stopping as
soon as the recomputed value does not exceed the stored one. -/
def propagate (store : List WordMetadata) : List BuilderNode → List Nat →
    Option (List BuilderNode)
  | nodes, [] => some nodes
  | nodes, idx :: rest =>
    match nodes.get? idx with
    | none => none
    | some node =>
      let termOpt : Option Nat :=
        match node.word_id with
        | some id => (store.get? id).map (fun m => m.frequency)
        | none => some 0
      match termOpt with
      | none => none
      | some term =>
        match childrenMax nodes node.children with
        | none => none
        | some cmax =>
          let m := max term cmax
          if m > node.max_freq_in_subtree then
            propagate store
              (nodes.set idx { node with max_freq_in_subtree := m }) rest
          else
            some nodes

/-- trie.rs `TrieBuilder::insert`.  The `_freq` argument is ignored by the
source (frequencies are re-read from the metadata store). -/
def TrieBuilder.insert (t : TrieBuilder) (key : List Nat) (wordId : Nat)
    (_freq : Nat) : Option TrieBuilder := do
  let (nodes1, endIdx, path) ← descend t.nodes 0 [0] key
  match nodes1.get? endIdx with
  | none => none
  | some endNode =>
    let nodes2 := nodes1.set endIdx { endNode with word_id := some wordId }
    let nodes3 ← propagate t.metadata_store nodes2 path.reverse
    some { t with nodes := nodes3 }

/-- Prefix navigation in trie.rs `get_top_k_suggestions`:
`some (some idx)` reaches the subtree root, `some none` is a missing byte
(empty result), `none` is an out-of-bounds panic. -/
def navigate (nodes : List BuilderNode) : Nat → List Nat → Option (Option Nat)
  | idx, [] => some (some idx)
  | idx, b :: rest =>
    match nodes.get? idx with
    | none => none
    | some node =>
      match List.lookup b node.children with
      | some c => navigate nodes c rest
      | none => some none

/-- Strict lexicographic order on (frequency, word id) pairs, the `Ord`
instance Rust uses inside `BinaryHeap<(u64, WordId)>`. -/

def pairLt (x y : Nat × Nat) : Bool :=
  decide (x.1 < y.1) || (decide (x.1 = y.1) && decide (x.2 < y.2))

/-- `BinaryHeap<(u64, WordId)>` modelled as a list sorted in decreasing
lexicographic order; the head is the maximum, which is what Rust
`peek`/`pop` operate on. -/
def heapPush (x : Nat × Nat) : List (Nat × Nat) → List (Nat × Nat)
  | [] => [x]
  | y :: t => if pairLt y x then x :: y :: t else y :: heapPush x t

/-- The children loop of trie.rs `dfs_search`, pruning subtrees whose
stored maximum does not exceed the heap bound captured before the loop.
The recursive DFS call is passed in as `rec`. -/
def dfsKids (rec : Nat → List (Nat × Nat) → Option (List (Nat × Nat)))
    (nodes : List BuilderNode) (minFreq : Nat) :
    List (Nat × Nat) → List (Nat × Nat) → Option (List (Nat × Nat))
  | [], heap => some heap
  | (_, c) :: rest, heap =>
    match nodes.get? c with
    | none => none
    | some cn =>
      if cn.max_freq_in_subtree > minFreq then
        match rec c heap with
        | none => none
        | some heap2 => dfsKids rec nodes minFreq rest heap2
      else dfsKids rec nodes minFreq rest heap

/-- The terminal-node step of trie.rs `dfs_search`: push (freq, id) when
the heap is not full, otherwise replace the heap top when the new
frequency exceeds it (`peek` on a Rust BinaryHeap is the maximum). -/
def dfsTerm (store : List WordMetadata) (k : Nat) (node : BuilderNode)
    (heap : List (Nat × Nat)) : Option (List (Nat × Nat)) :=
  match node.word_id with
  | some id =>
    match store.get? id with
    | none => none
    | some meta =>
      if heap.length < k then some (heapPush (meta.frequency, id) heap)
      else
        match heap.head? with
        | none => none
        | some top =>
          if meta.frequency > top.1 then some (heapPush (meta.frequency, id) heap.tail)
          else some heap
  | none => some heap

/-- The bound captured before the children loop of `dfs_search`
(`heap.peek().unwrap().0` when the heap is full, otherwise 0). -/
def dfsMin (k : Nat) (heap1 : List (Nat × Nat)) : Option Nat :=
  if heap1.length = k then
    match heap1.head? with
    | none => none
    | some top => some top.1
  else some 0

/-- trie.rs `dfs_search`.  Fuel bounds the recursion depth (child indices
strictly increase in states built by `insert`, so `nodes.length` fuel
never runs out on such states).  `none` models the out-of-bounds panics
on `metadata_store[id]` and the `heap.peek().unwrap()` panic when the
heap is empty with `k = 0`. -/
def dfs (store : List WordMetadata) (nodes : List BuilderNode) (k : Nat) :
    Nat → Nat → List (Nat × Nat) → Option (List (Nat × Nat))
  | 0, _, _ => none
  | fuel + 1, idx, heap =>
    match nodes.get? idx with
    | none => none
    | some node =>
      match dfsTerm store k node heap with
      | none => none
      | some heap1 =>
        match dfsMin k heap1 with
        | none => none
        | some minFreq =>
          dfsKids (fun c h => dfs store nodes k fuel c h) nodes minFreq
            node.children heap1

/-- trie.rs `get_top_k_suggestions`: navigate to the prefix subtree, run
the pruned DFS, and return (id, freq) pairs in decreasing heap order
(`into_sorted_vec` ascending, swapped and reversed). -/
def TrieBuilder.get_top_k_suggestions (t : TrieBuilder) (pre : List Nat) (k : Nat) :
    Option (List (Nat × Nat)) :=
  match navigate t.nodes 0 pre with
  | none => none
  | some none => some []
  | some (some idx) =>
    (dfs t.metadata_store t.nodes k t.nodes.length idx []).map
      (fun heap => heap.map (fun p => (p.2, p.1)))

-- ---------------------------------------------------------------------------
-- src/fuzzy/symspell.rs : SymSpell
-- ---------------------------------------------------------------------------

/-- symspell.rs `SymSpell`; `deletes` maps a delete variant to the set of
WordIds that produce it. -/
structure SymSpell where
  deletes : List (List Nat × List Nat)
  max_edit_distance : Nat
deriving DecidableEq, Repr

/-- symspell.rs `SymSpell::new`. -/
def SymSpell.new (d : Nat) : SymSpell :=
  { deletes := [], max_edit_distance := d }

/-- Rust `String::remove(i)`: removes the character starting at byte
index `i`; `none` models the panic when `i` is not a char boundary
(or past the end). -/
def stringRemove (s : List Nat) (i : Nat) : Option (List Nat) :=
  match s.get? i with
  | none => none
  | some b =>
    if isCharBoundaryByte b then some (s.take i ++ s.drop (i + charLen b))
    else none

/-- One round of symspell.rs `generate_edits`: all single-character
deletions of every string in `current`, collected as a set. -/
def deleteRound (current : List (List Nat)) : Option (List (List Nat)) :=
  current.foldlM
    (fun acc e =>
      (List.range e.length).foldlM
        (fun acc2 i => (stringRemove e i).map (insertDedup acc2)) acc)
    []

/-- The distance loop of `generate_edits`. -/
def geAux : Nat → List (List Nat) → List (List Nat) → Option (List (List Nat))
  | 0, edits, _ => some edits
  | n + 1, edits, current => do
    let next ← deleteRound current
    geAux n (next.foldl insertDedup edits) next

/-- symspell.rs `generate_edits`: the word itself plus every delete
variant within the given edit distance.  `none` models the
char-boundary panic of `String::remove` on multi-byte input. -/
def generate_edits (d : Nat) (word : List Nat) : Option (List (List Nat)) :=
  geAux d [word] [word]

/-- Update the value at a key of an association map in place
(the Rust `entry(..).and_modify(..)` idiom). -/
def updateAssocWith {kappa beta : Type} [DecidableEq kappa] (f : beta → beta)
    (key : kappa) (m : List (kappa × beta)) : List (kappa × beta) :=
  m.map (fun p => if p.1 = key then (p.1, f p.2) else p)

/-- Insert an id into the bucket of a delete variant
(`deletes.entry(edit).or_default().insert(word_id)`). -/
def bucketInsert (m : List (List Nat × List Nat)) (k : List Nat) (id : Nat) :
    List (List Nat × List Nat) :=
  match List.lookup k m with
  | some _ => updateAssocWith (fun ids => insertDedup ids id) k m
  | none => m ++ [(k, [id])]

/-- symspell.rs `add_word`. -/
def SymSpell.add_word (sp : SymSpell) (word : List Nat) (wordId : Nat) :
    Option SymSpell := do
  let edits ← generate_edits sp.max_edit_distance word
  some { sp with deletes := edits.foldl (fun m e => bucketInsert m e wordId) sp.deletes }

/-- The bucket of a delete variant, empty when absent. -/
def bucketD (m : List (List Nat × List Nat)) (k : List Nat) : List Nat :=
  (List.lookup k m).getD []

/-- Accumulate the ids of the buckets of all edits
(the candidate-collection loop of symspell.rs `lookup`). -/
def unionBuckets (m : List (List Nat × List Nat)) (edits : List (List Nat))
    (acc : List Nat) : List Nat :=
  edits.foldl (fun acc2 e => (bucketD m e).foldl insertDedup acc2) acc

/-- symspell.rs `lookup`: union of the buckets of the input and of all
its delete variants. -/
def SymSpell.lookup (sp : SymSpell) (input : List Nat) : Option (List Nat) := do
  let c0 := (bucketD sp.deletes input).foldl insertDedup []
  let edits ← generate_edits sp.max_edit_distance input
  some (unionBuckets sp.deletes edits c0)

-- ---------------------------------------------------------------------------
-- src/core/context.rs : ContextModel
-- ---------------------------------------------------------------------------

/-- context.rs `ContextModel`; `history` lists the VecDeque front to
back, `bigrams` maps (previous id, current id) to a count. -/
structure ContextModel where
  window_size : Nat
  history : List Nat
  bigrams : List ((Nat × Nat) × Nat)
deriving DecidableEq, Repr

/-- context.rs `ContextModel::new`. -/
def ContextModel.new (w : Nat) : ContextModel :=
  { window_size := w, history := [], bigrams := [] }

/-- `*bigrams.entry(key).or_insert(0) += 1`. -/
def bumpBigram (m : List ((Nat × Nat) × Nat)) (key : Nat × Nat) :
    List ((Nat × Nat) × Nat) :=
  match List.lookup key m with
  | some _ => updateAssocWith (fun v => v + 1) key m
  | none => m ++ [(key, 1)]

/-- context.rs `add_word`: bump the bigram with the back of the window,
then push, evicting from the front at capacity. -/
def ContextModel.add_word (c : ContextModel) (wordId : Nat) : ContextModel :=
  let c1 :=
    match c.history.getLast? with
    | some prev => { c with bigrams := bumpBigram c.bigrams (prev, wordId) }
    | none => c
  let h := if c1.history.length = c1.window_size then c1.history.tail else c1.history
  { c1 with history := h ++ [wordId] }

/-- Fuel-driven binary logarithm: `log2Fuel fuel n` equals `Nat.log2 n`
whenever `n` is at most the fuel (proved below), and is computable by
kernel reduction. -/
def log2Fuel : Nat → Nat → Nat
  | 0, _ => 0
  | fuel + 1, n => if n ≥ 2 then log2Fuel fuel (n / 2) + 1 else 0

/-- The score boost of context.rs `rerank_suggestions`.  The source
computes `((count as f64).log2() * 10.0) as u64`; the model is the exact
value floor(10 * log2 count) = floor(log2 (count^10)), computed with a
fuel-driven binary logarithm (and 0 for count = 0, matching the
saturating float-to-integer cast of -inf). -/
def contextBoost (count : Nat) : Nat :=
  log2Fuel (count ^ 10) (count ^ 10)

/-- context.rs `rerank_suggestions`: boost suggestions that form a known
bigram with the back of the history window, then re-sort by descending
score (Rust `sort_by_key` is stable; so is insertion sort). -/
def ContextModel.rerank_suggestions (c : ContextModel) (sugs : List (Nat × Nat)) :
    List (Nat × Nat) :=
  match c.history.getLast? with
  | none => sugs
  | some prev =>
    let boosted := sugs.map (fun p =>
      match List.lookup (prev, p.1) c.bigrams with
      | some count => (p.1, p.2 + contextBoost count)
      | none => p)
    List.insertionSort (fun x y : Nat × Nat => x.2 ≥ y.2) boosted

-- ---------------------------------------------------------------------------
-- src/core/engine.rs : ImeEngine
-- ---------------------------------------------------------------------------

def CONTEXT_WINDOW_SIZE : Nat := 3

def MAX_EDIT_DISTANCE : Nat := 2

def LITERAL_BASE_SCORE : Nat := 1

def PRIMARY_LITERAL_SCORE : Nat := 2

/-- engine.rs `SuggestionSource`, ordered by quality. -/
inductive SuggestionSource where
  | literal
  | primaryLiteral
  | fuzzy
  | trie
deriving DecidableEq, Repr

/-- The derived `Ord` rank of `SuggestionSource` (declaration order). -/
def srcRank : SuggestionSource → Nat
  | SuggestionSource.literal => 0
  | SuggestionSource.primaryLiteral => 1
  | SuggestionSource.fuzzy => 2
  | SuggestionSource.trie => 3

/-- engine.rs `add_candidate`: a higher-quality source overwrites
outright; within the same source the larger score wins. -/
def addCandidate (m : List (List Nat × (Nat × SuggestionSource)))
    (nep : List Nat) (score : Nat) (src : SuggestionSource) :
    List (List Nat × (Nat × SuggestionSource)) :=
  match List.lookup nep m with
  | none => m ++ [(nep, (score, src))]
  | some (s0, src0) =>
    if srcRank src > srcRank src0 then
      updateAssocWith (fun _ => (score, src)) nep m
    else if src = src0 ∧ score > s0 then
      updateAssocWith (fun old => (score, old.2)) nep m
    else m

/-- The write-back loop of engine.rs `get_suggestions` stage 5: set the
score of the first entry whose string matches. -/
def updateScoreByKey : List (List Nat × Nat) → List Nat → Nat → List (List Nat × Nat)
  | [], _, _ => []
  | (k, v) :: t, key, val =>
    if k = key then (k, val) :: t else (k, v) :: updateScoreByKey t key val

/-- One write-back step of stage 5: `metadata_store[id]` (a direct index,
`none` on out-of-bounds) and overwrite the matching suggestion score. -/
def writeBack (store : List WordMetadata) (acc : List (List Nat × Nat))
    (p : Nat × Nat) : Option (List (List Nat × Nat)) :=
  match store.get? p.1 with
  | none => none
  | some meta => some (updateScoreByKey acc meta.nepali p.2)

/-- engine.rs `ImeEngine`.  The romanizer holds only the fixed tables and
the learning engine only the constant increment 1, so neither carries
state; `dictionary_path` is kept for the constructor contracts. -/
structure ImeEngine where
  trie_builder : TrieBuilder
  context_model : ContextModel
  symspell : SymSpell
  dictionary_path : Option (List Nat)
deriving DecidableEq, Repr

/-- engine.rs `ImeEngine::new`. -/
def ImeEngine.new : ImeEngine :=
  { trie_builder := TrieBuilder.new,
    context_model := ContextModel.new CONTEXT_WINDOW_SIZE,
    symspell := SymSpell.new MAX_EDIT_DISTANCE,
    dictionary_path := none }

/-- engine.rs `get_suggestions`.  `none` models a panic inside the
pipeline (SymSpell delete generation on a non-ASCII prefix, DFS
metadata indexing, or the empty-heap peek when `count = 0`). -/
def ImeEngine.get_suggestions (e : ImeEngine) (pre : List Nat) (count : Nat) :
    Option (List (List Nat × Nat)) :=
  if pre = [] then some []
  else do
    -- Stage 1: trie search.
    let trieSugs ← e.trie_builder.get_top_k_suggestions pre count
    let cands := trieSugs.foldl
      (fun m p =>
        match e.trie_builder.metadata_store.get? p.1 with
        | some meta => addCandidate m meta.nepali p.2 SuggestionSource.trie
        | none => m)
      []
    -- Stage 2: fuzzy search, penalized by saturating_sub 1.
    let fuzzy ← e.symspell.lookup pre
    let cands := fuzzy.foldl
      (fun m id =>
        match e.trie_builder.metadata_store.get? id with
        | some meta =>
          addCandidate m meta.nepali (meta.frequency - 1) SuggestionSource.fuzzy
        | none => m)
      cands
    -- Stage 3: primary transliteration.
    let cands := addCandidate cands (transliterate_primary pre)
      PRIMARY_LITERAL_SCORE SuggestionSource.primaryLiteral
    -- Stage 4: other literal candidates.
    let cands := (generate_candidates pre).foldl
      (fun m nep => addCandidate m nep LITERAL_BASE_SCORE SuggestionSource.literal)
      cands
    -- Stage 5: contextual re-rank and final sort.
    let allSugs : List (List Nat × Nat) := cands.map (fun p => (p.1, p.2.1))
    let withIds : List (Nat × Nat) := allSugs.filterMap (fun p =>
      (e.trie_builder.find_word_id_by_nepali p.1).map (fun id => (id, p.2)))
    let reranked := e.context_model.rerank_suggestions withIds
    let written ← reranked.foldlM (writeBack e.trie_builder.metadata_store) allSugs
    some ((List.insertionSort (fun x y : List Nat × Nat => x.2 ≥ y.2) written).take count)

-- ---------------------------------------------------------------------------
-- src/learning.rs : LearningEngine (frequency_increment = 1)
-- ---------------------------------------------------------------------------

/-- learning.rs `learn`: fetch-or-create metadata, bump the frequency,
record the Roman variant (feeding SymSpell on a new variant, plus the
Devanagari form on the very first variant), insert into the trie, and
update the context. -/
def learnMeta (meta0 : WordMetadata) (roman : List Nat) : WordMetadata :=
  let meta1 := { meta0 with frequency := meta0.frequency + 1 }
  if roman ∈ meta1.variants then meta1
  else { meta1 with variants := meta1.variants ++ [roman] }

/-- The conditional SymSpell population of learning.rs `learn`: feed the
Roman variant when it is new, plus the Devanagari form on the first
variant ever seen for the word. -/
def learnSym (sp : SymSpell) (roman nepali : List Nat) (word_id : Nat)
    (isNew firstVariant : Bool) : Option SymSpell :=
  if isNew then do
    let spA ← sp.add_word roman word_id
    if firstVariant then spA.add_word nepali word_id else some spA
  else some sp

/-- learning.rs `learn`: fetch-or-create metadata, bump the frequency,
record the Roman variant (feeding SymSpell on a new variant, plus the
Devanagari form on the very first variant), insert into the trie, and
update the context. -/
def learn (trie : TrieBuilder) (ctx : ContextModel) (sp : SymSpell)
    (roman nepali : List Nat) : Option (TrieBuilder × ContextModel × SymSpell) := do
  let pr := trie.get_or_create_metadata nepali
  match pr.2.metadata_store.get? pr.1 with
  | none => none
  | some meta0 =>
    let meta2 := learnMeta meta0 roman
    let trie2 := { pr.2 with metadata_store := pr.2.metadata_store.set pr.1 meta2 }
    let sp1 ← learnSym sp roman nepali pr.1 (decide (roman ∉ meta0.variants))
      (decide (meta2.variants.length = 1))
    let trie3 ← trie2.insert roman pr.1 meta2.frequency
    some (trie3, ctx.add_word pr.1, sp1)

/-- engine.rs `user_confirms`: ignore empty arguments, otherwise learn. -/
def ImeEngine.user_confirms (e : ImeEngine) (roman nepali : List Nat) :
    Option ImeEngine :=
  if roman = [] ∨ nepali = [] then some e
  else
    (learn e.trie_builder e.context_model e.symspell roman nepali).map
      (fun r => { e with trie_builder := r.1, context_model := r.2.1, symspell := r.2.2 })

-- ---------------------------------------------------------------------------
-- Shared predicates and scenario states
-- ---------------------------------------------------------------------------

/-- The frequency of the terminal word of a node, 0 when the node is not
terminal (out-of-range ids contribute 0; such states are excluded where
it matters). -/
def termFreqOf (store : List WordMetadata) (n : BuilderNode) : Nat :=
  match n.word_id with
  | some id => ((store.get? id).map (fun m => m.frequency)).getD 0
  | none => 0

/-- The stored subtree maximum of child index `c`, 0 when dangling. -/
def childMaxD (t : TrieBuilder) (c : Nat) : Nat :=
  ((t.nodes.get? c).map (fun n => n.max_freq_in_subtree)).getD 0

/-- The right-hand side of the subtree-max invariant at a node: the
maximum of the terminal frequency and the stored maxima of the children. -/
def nodeLocalMax (t : TrieBuilder) (n : BuilderNode) : Nat :=
  max (termFreqOf t.metadata_store n)
    ((n.children.map (fun p => childMaxD t p.2)).foldr max 0)

/-- The spec invariant on every trie node:
`max_freq_in_subtree(N) = max(freq(word_id(N)) if any, max over children)`. -/
def trieInvariant (t : TrieBuilder) : Prop :=
  ∀ n ∈ t.nodes, n.max_freq_in_subtree = nodeLocalMax t n

instance (t : TrieBuilder) : Decidable (trieInvariant t) :=
  List.decidableBAll _ t.nodes

/-- Run a list of confirmations through the engine. -/
def confirmChain : ImeEngine → List (List Nat × List Nat) → Option ImeEngine
  | e, [] => some e
  | e, (r, d) :: rest =>
    match e.user_confirms r d with
    | none => none
    | some e2 => confirmChain e2 rest

/-- The engine state reached by confirming (a, X) once, (aa, Y) three
times and (aaa, Z) twice; the trie then stores frequencies 1, 3, 2 on
the chain a - aa - aaa. -/
def c3Engine : ImeEngine :=
  (confirmChain ImeEngine.new
    [(bytesOf "a", bytesOf "X"), (bytesOf "aa", bytesOf "Y"),
     (bytesOf "aa", bytesOf "Y"), (bytesOf "aa", bytesOf "Y"),
     (bytesOf "aaa", bytesOf "Z"), (bytesOf "aaa", bytesOf "Z")]).getD ImeEngine.new

/-- The engine state reached by confirming the word P under the Roman
variant b and then under the variant c. -/
def c5Engine : ImeEngine :=
  (confirmChain ImeEngine.new
    [(bytesOf "b", bytesOf "P"), (bytesOf "c", bytesOf "P")]).getD ImeEngine.new

/-- The state `learn("nepal", "नेपाल")` would produce on a fresh engine if
SymSpell indexing of the Devanagari form did not panic: metadata entry 0
with frequency 1 and variant nepal, the trie path for nepal, the Roman
delete variants in SymSpell, and word 0 in the context history. -/
def c1State : ImeEngine :=
  let t0 := TrieBuilder.new
  let idt := t0.get_or_create_metadata (bytesOf "नेपाल")
  let newMeta : WordMetadata :=
    { nepali := bytesOf "नेपाल", frequency := 1, variants := [bytesOf "nepal"] }
  let t2 : TrieBuilder :=
    { idt.2 with metadata_store := idt.2.metadata_store.set idt.1 newMeta }
  let t3 := (t2.insert (bytesOf "nepal") idt.1 1).getD t2
  let sp := ((SymSpell.new 2).add_word (bytesOf "nepal") idt.1).getD (SymSpell.new 2)
  { trie_builder := t3, context_model := (ContextModel.new 3).add_word idt.1,
    symspell := sp, dictionary_path := none }

-- ---------------------------------------------------------------------------
-- C4
-- ---------------------------------------------------------------------------

/-- The quality-then-score comparison that `add_candidate` maximizes:
`v` beats `w` when it has strictly higher source rank, or the same
source and at least the score. -/
def lexGE (v w : Nat × SuggestionSource) : Prop :=
  srcRank w.2 < srcRank v.2 ∨ (w.2 = v.2 ∧ w.1 ≤ v.1)

/-- Fold a batch of (string, score, source) candidates through
`add_candidate`, as the stages of `get_suggestions` do. -/
def processCandidates (l : List (List Nat × Nat × SuggestionSource)) :
    List (List Nat × (Nat × SuggestionSource)) :=
  l.foldl (fun m x => addCandidate m x.1 x.2.1 x.2.2) []

/-- The (score, source) pairs offered for one Devanagari key. -/
def valuesFor (k : List Nat) (l : List (List Nat × Nat × SuggestionSource)) :
    List (Nat × SuggestionSource) :=
  (l.filter (fun x => decide (x.1 = k))).map (fun x => x.2)

instance : IsTotal (Nat × Nat) (fun x y => x.2 ≥ y.2) :=
  ⟨fun a b => le_total b.2 a.2⟩

instance : IsTrans (Nat × Nat) (fun x y => x.2 ≥ y.2) :=
  ⟨fun _ _ _ h1 h2 => le_trans h2 h1⟩

instance : IsTotal (List Nat × Nat) (fun x y => x.2 ≥ y.2) :=
  ⟨fun a b => le_total b.2 a.2⟩

instance : IsTrans (List Nat × Nat) (fun x y => x.2 ≥ y.2) :=
  ⟨fun _ _ _ h1 h2 => le_trans h2 h1⟩

/-- All bytes of a string are ASCII. -/
def asciiStr (l : List Nat) : Prop := ∀ b ∈ l, b < 128

/-- A bound on an optional word id. -/
def optIdLt (o : Option Nat) (len : Nat) : Prop :=
  ∀ id, o = some id → id < len

instance (o : Option Nat) (len : Nat) : Decidable (optIdLt o len) :=
  match o with
  | none => isTrue (by intro id h; cases h)
  | some v =>
    if hv : v < len then
      isTrue (by intro id h; cases h; exact hv)
    else isFalse (fun hall => hv (hall v rfl))

/-- Well-formedness of a trie state: a root exists, child links go
strictly forward and in bounds, and terminal ids are in bounds.  Every
state built by the engine operations satisfies this. -/
def WfTrie (t : TrieBuilder) : Prop :=
  t.nodes ≠ [] ∧
  (∀ i, ∀ h : i < t.nodes.length, ∀ p ∈ (t.nodes.get ⟨i, h⟩).children,
    i < p.2 ∧ p.2 < t.nodes.length) ∧
  (∀ n ∈ t.nodes, optIdLt n.word_id t.metadata_store.length)

instance (t : TrieBuilder) : Decidable (WfTrie t) := by
  unfold WfTrie
  exact instDecidableAnd

instance (l : List Nat) : Decidable (asciiStr l) :=
  List.decidableBAll _ l

-- ---------------------------------------------------------------------------
-- C7 : src/persistence.rs, bincode-style serialization of the state
-- ---------------------------------------------------------------------------

/-- A u64 / usize value as 8 little-endian bytes (bincode fixint). -/
def encU64 (n : Nat) : List Nat :=
  [n % 256, n / 256 % 256, n / 256 ^ 2 % 256, n / 256 ^ 3 % 256,
   n / 256 ^ 4 % 256, n / 256 ^ 5 % 256, n / 256 ^ 6 % 256, n / 256 ^ 7 % 256]

def decU64 : List Nat → Option (Nat × List Nat)
  | b0 :: b1 :: b2 :: b3 :: b4 :: b5 :: b6 :: b7 :: rest =>
    some (b0 + 256 * (b1 + 256 * (b2 + 256 * (b3 + 256 * (b4 + 256 * (b5 +
      256 * (b6 + 256 * b7)))))), rest)
  | _ => none

/-- A single raw byte (bincode u8). -/
def encU8 (n : Nat) : List Nat := [n]

def decU8 : List Nat → Option (Nat × List Nat)
  | b :: rest => some (b, rest)
  | [] => none

/-- A byte string: u64 length prefix, then the raw bytes. -/
def encBytes (s : List Nat) : List Nat := encU64 s.length ++ s

def decBytes (l : List Nat) : Option (List Nat × List Nat) := do
  let (n, r) ← decU64 l
  if n ≤ r.length then some (r.take n, r.drop n) else none

/-- An Option: one tag byte, then the payload. -/
def encOpt {alpha : Type} (enc : alpha → List Nat) : Option alpha → List Nat
  | none => [0]
  | some a => 1 :: enc a

def decOpt {alpha : Type} (dec : List Nat → Option (alpha × List Nat)) :
    List Nat → Option (Option alpha × List Nat)
  | 0 :: r => some (none, r)
  | 1 :: r => (dec r).map (fun p => (some p.1, p.2))
  | _ => none

/-- A sequence / map / set: u64 length prefix, then the elements. -/
def encList {alpha : Type} (enc : alpha → List Nat) (l : List alpha) : List Nat :=
  encU64 l.length ++ (l.map enc).flatten

def decN {alpha : Type} (dec : List Nat → Option (alpha × List Nat)) :
    Nat → List Nat → Option (List alpha × List Nat)
  | 0, r => some ([], r)
  | n + 1, r => do
    let (a, r1) ← dec r
    let (as, r2) ← decN dec n r1
    some (a :: as, r2)

def decList {alpha : Type} (dec : List Nat → Option (alpha × List Nat))
    (l : List Nat) : Option (List alpha × List Nat) := do
  let (n, r) ← decU64 l
  decN dec n r

def encPairU64 (p : Nat × Nat) : List Nat := encU64 p.1 ++ encU64 p.2

def decPairU64 (l : List Nat) : Option ((Nat × Nat) × List Nat) := do
  let (a, r1) ← decU64 l
  let (b, r2) ← decU64 r1
  some ((a, b), r2)

/-- A trie child entry: u8 byte key, then the node index. -/
def encChild (p : Nat × Nat) : List Nat := encU8 p.1 ++ encU64 p.2

def decChild (l : List Nat) : Option ((Nat × Nat) × List Nat) := do
  let (b, r1) ← decU8 l
  let (v, r2) ← decU64 r1
  some ((b, v), r2)

/-- trie.rs `BuilderNode`: children map, optional word id, subtree max. -/
def encNode (n : BuilderNode) : List Nat :=
  encList encChild n.children ++ encOpt encU64 n.word_id ++ encU64 n.max_freq_in_subtree

def decNode (l : List Nat) : Option (BuilderNode × List Nat) := do
  let (cs, r1) ← decList decChild l
  let (wid, r2) ← decOpt decU64 r1
  let (mx, r3) ← decU64 r2
  some ({ children := cs, word_id := wid, max_freq_in_subtree := mx }, r3)

/-- types.rs `WordMetadata`: string, frequency, variants set. -/
def encMeta (m : WordMetadata) : List Nat :=
  encBytes m.nepali ++ encU64 m.frequency ++ encList encBytes m.variants

def decMeta (l : List Nat) : Option (WordMetadata × List Nat) := do
  let (nep, r1) ← decBytes l
  let (fr, r2) ← decU64 r1
  let (vs, r3) ← decList decBytes r2
  some ({ nepali := nep, frequency := fr, variants := vs }, r3)

/-- trie.rs `TrieBuilder`: nodes, then the metadata store. -/
def encTrie (t : TrieBuilder) : List Nat :=
  encList encNode t.nodes ++ encList encMeta t.metadata_store

def decTrie (l : List Nat) : Option (TrieBuilder × List Nat) := do
  let (ns, r1) ← decList decNode l
  let (ms, r2) ← decList decMeta r1
  some ({ nodes := ns, metadata_store := ms }, r2)

/-- context.rs `ContextModel`: window size, history deque, bigram map. -/
def encContext (c : ContextModel) : List Nat :=
  encU64 c.window_size ++ encList encU64 c.history ++
    encList (fun q => encPairU64 q.1 ++ encU64 q.2) c.bigrams

def decBigram (l : List Nat) : Option (((Nat × Nat) × Nat) × List Nat) := do
  let (k, r1) ← decPairU64 l
  let (v, r2) ← decU64 r1
  some ((k, v), r2)

def decContext (l : List Nat) : Option (ContextModel × List Nat) := do
  let (w, r1) ← decU64 l
  let (h, r2) ← decList decU64 r1
  let (bg, r3) ← decList decBigram r2
  some ({ window_size := w, history := h, bigrams := bg }, r3)

/-- symspell.rs `SymSpell`: deletes map, then the edit distance. -/
def encSymSpell (sp : SymSpell) : List Nat :=
  encList (fun p => encBytes p.1 ++ encList encU64 p.2) sp.deletes ++
    encU64 sp.max_edit_distance

def decDelete (l : List Nat) : Option ((List Nat × List Nat) × List Nat) := do
  let (k, r1) ← decBytes l
  let (ids, r2) ← decList decU64 r1
  some ((k, ids), r2)

def decSymSpell (l : List Nat) : Option (SymSpell × List Nat) := do
  let (ds, r1) ← decList decDelete l
  let (d, r2) ← decU64 r1
  some ({ deletes := ds, max_edit_distance := d }, r2)

/-- persistence.rs `SerializableState`: trie, context, symspell in field
order; `save_to_disk` writes these bytes to a temp file and renames it
over the target (the file system round trip is modelled as the identity
on the byte string). -/
def save_to_disk (e : ImeEngine) : List Nat :=
  encTrie e.trie_builder ++ encContext e.context_model ++ encSymSpell e.symspell

/-- persistence.rs `load_from_disk`: decode the three components and
install them in a fresh engine (the dictionary path of the loaded engine
is not restored; `from_file_or_new` sets it afterwards). -/
def load_from_disk (bytes : List Nat) : Option ImeEngine := do
  let (t, r1) ← decTrie bytes
  let (c, r2) ← decContext r1
  let (sp, r3) ← decSymSpell r2
  if r3 = [] then
    -- a fresh ImeEngine.new with the three stateful components replaced;
    -- its dictionary path stays none
    some { trie_builder := t, context_model := c, symspell := sp,
           dictionary_path := none }
  else none

def U64LIM : Nat := 2 ^ 64

/-- The numeric fields that Rust stores in u64 / usize are below 2^64. -/
def BoundedNode (n : BuilderNode) : Prop :=
  n.children.length < U64LIM ∧ (∀ p ∈ n.children, p.2 < U64LIM) ∧
  optIdLt n.word_id U64LIM ∧ n.max_freq_in_subtree < U64LIM

def BoundedMeta (m : WordMetadata) : Prop :=
  m.nepali.length < U64LIM ∧ m.frequency < U64LIM ∧
  m.variants.length < U64LIM ∧ ∀ v ∈ m.variants, v.length < U64LIM

def BoundedTrie (t : TrieBuilder) : Prop :=
  t.nodes.length < U64LIM ∧ (∀ n ∈ t.nodes, BoundedNode n) ∧
  t.metadata_store.length < U64LIM ∧ ∀ m ∈ t.metadata_store, BoundedMeta m

def BoundedContext (c : ContextModel) : Prop :=
  c.window_size < U64LIM ∧ c.history.length < U64LIM ∧
  (∀ id ∈ c.history, id < U64LIM) ∧ c.bigrams.length < U64LIM ∧
  ∀ q ∈ c.bigrams, q.1.1 < U64LIM ∧ q.1.2 < U64LIM ∧ q.2 < U64LIM

def BoundedSymSpell (sp : SymSpell) : Prop :=
  sp.deletes.length < U64LIM ∧
  (∀ p ∈ sp.deletes, p.1.length < U64LIM ∧ p.2.length < U64LIM ∧
    ∀ id ∈ p.2, id < U64LIM) ∧
  sp.max_edit_distance < U64LIM

def BoundedEngine (e : ImeEngine) : Prop :=
  BoundedTrie e.trie_builder ∧ BoundedContext e.context_model ∧
  BoundedSymSpell e.symspell

instance (n : BuilderNode) : Decidable (BoundedNode n) := by
  unfold BoundedNode
  exact instDecidableAnd

instance (m : WordMetadata) : Decidable (BoundedMeta m) := by
  unfold BoundedMeta
  exact instDecidableAnd

instance (t : TrieBuilder) : Decidable (BoundedTrie t) := by
  unfold BoundedTrie
  exact instDecidableAnd

instance (c : ContextModel) : Decidable (BoundedContext c) := by
  unfold BoundedContext
  exact instDecidableAnd

instance (sp : SymSpell) : Decidable (BoundedSymSpell sp) := by
  unfold BoundedSymSpell
  exact instDecidableAnd

instance (e : ImeEngine) : Decidable (BoundedEngine e) := by
  unfold BoundedEngine
  exact instDecidableAnd

/-- Validity of all ids stored in a deletes map. -/
def symIdsValid (m : List (List Nat × List Nat)) (len : Nat) : Prop :=
  ∀ p ∈ m, ∀ id ∈ p.2, id < len

/-- The child node indices of a trie node. -/
def childIdxs (n : BuilderNode) : List Nat :=
  n.children.map (fun p => p.2)

/-- The subtree-max equation holds at index `j` (vacuously when `j` is
out of range). -/
def localEq (store : List WordMetadata) (nodes : List BuilderNode) (j : Nat) : Prop :=
  ∀ n ∈ nodes.get? j, n.max_freq_in_subtree = nodeLocalMax ⟨nodes, store⟩ n

/-- Along the processing list `q` (leaf first), a node of `q` is a child
only of its successor in `q`: in-edges into the path come only from the
parent on the path, and the last element (the root) has none. -/
def inEdgesOk (nodes : List BuilderNode) (q : List Nat) : Prop :=
  ∀ i, i < q.length → ∀ j, j < nodes.length →
    ∀ v ∈ q.get? i, ∀ n ∈ nodes.get? j,
      v ∈ childIdxs n → q.get? (i + 1) = some j

/-- Every index of `q` is in range, with a valid terminal id and in-range
children: exactly what the propagation loop indexes. -/
def nodesOk (store : List WordMetadata) (nodes : List BuilderNode) (q : List Nat) : Prop :=
  ∀ i ∈ q, i < nodes.length ∧
    ∀ n ∈ nodes.get? i, optIdLt n.word_id store.length ∧
      ∀ c ∈ childIdxs n, c < nodes.length

instance (nodes : List BuilderNode) (q : List Nat) :
    Decidable (inEdgesOk nodes q) := by
  unfold inEdgesOk
  infer_instance

instance (store : List WordMetadata) (nodes : List BuilderNode) (q : List Nat) :
    Decidable (nodesOk store nodes q) := by
  unfold nodesOk
  infer_instance

/-- All word ids stored anywhere in an engine state are valid indices
into the metadata store. -/
def ValidIds (e : ImeEngine) : Prop :=
  (∀ n ∈ e.trie_builder.nodes,
    optIdLt n.word_id e.trie_builder.metadata_store.length) ∧
  symIdsValid e.symspell.deletes e.trie_builder.metadata_store.length ∧
  (∀ x ∈ e.context_model.history, x < e.trie_builder.metadata_store.length) ∧
  (∀ q ∈ e.context_model.bigrams,
    q.1.1 < e.trie_builder.metadata_store.length ∧
    q.1.2 < e.trie_builder.metadata_store.length)

/-- The engine states reachable through the public API: a fresh engine,
a successful confirmation, or a save/load round trip (states whose
numbers fit in u64, as every Rust state does). -/
inductive Reachable : ImeEngine → Prop where
  | base : Reachable ImeEngine.new
  | confirm (e e2 : ImeEngine) (roman nepali : List Nat) :
      Reachable e → e.user_confirms roman nepali = some e2 → Reachable e2
  | loadSave (e e2 : ImeEngine) : Reachable e → BoundedEngine e →
      load_from_disk (save_to_disk e) = some e2 → Reachable e2

instance (m : List (List Nat × List Nat)) (len : Nat) :
    Decidable (symIdsValid m len) := by
  unfold symIdsValid
  infer_instance

instance (e : ImeEngine) : Decidable (ValidIds e) := by
  unfold ValidIds
  infer_instance

/-- The state reached by confirming the self-mapped word "ne" on a fresh
engine. -/
def confirmNe : ImeEngine :=
  (ImeEngine.new.user_confirms (bytesOf "ne") (bytesOf "ne")).getD ImeEngine.new

/-- The trie after confirming the word P under the single Roman key b on
a fresh engine. -/
def c5StepTrie : TrieBuilder :=
  ((ImeEngine.new.user_confirms (bytesOf "b") (bytesOf "P")).getD
    ImeEngine.new).trie_builder

/-- The metadata record of word 0 with its frequency raised to 2, as the
second confirmation of (b, P) writes it. -/
def c5StepMeta : WordMetadata :=
  { nepali := bytesOf "P", frequency := 2, variants := [bytesOf "b"] }

-- ---------------------------------------------------------------------------
-- Theorems
-- ---------------------------------------------------------------------------

-- ---------------------------------------------------------------------------
-- C1
-- ---------------------------------------------------------------------------

/-- C1: the claim that after userConfirms("nepal", "नेपाल") once,
getSuggestions("ne", 3) has नेपाल on top fails twice over.  First,
user_confirms panics: learn feeds the Devanagari form to
SymSpell::add_word, whose generate_edits calls String::remove at every
byte index, and byte 1 of "नेपाल" is not a char boundary.  Second, even
on the state learn would otherwise have produced, the primary literal ने
(score PRIMARY_LITERAL_SCORE = 2) outranks the trie entry नेपाल
(score = frequency = 1), so नेपाल is ranked second, not first. -/
theorem c1_confirm_panics_and_primary_outranks :
    ImeEngine.new.user_confirms (bytesOf "nepal") (bytesOf "नेपाल") = none ∧
    c1State.get_suggestions (bytesOf "ne") 3 =
      some [(bytesOf "ने", 2), (bytesOf "नेपाल", 1), (bytesOf "नए", 1)] := by
  constructor
  · decide
  · decide

-- ---------------------------------------------------------------------------
-- C2
-- ---------------------------------------------------------------------------

/-- C2: end-of-word schwa deletion itself holds: whenever the FST output
ends with a virama (in particular whenever the final state is Halanta
and a virama is pending), the primary pass drops it, as the inputs rm
and k show.  But the claimed example is wrong on the code:
transliterate_primary("ram") = "रं", not "राम", because the vowels-table
alias "am" (anusvara) is the longest token after "r"; the final state of
"ram" is Syllable, not Halanta. -/
theorem c2_schwa_deletion :
    (∀ roman : List Nat, (runFst roman).2 = FstState.halanta →
      halBytes.isSuffixOf (runFst roman).1 →
      transliterate_base roman true =
        (runFst roman).1.take ((runFst roman).1.length - 3)) ∧
    transliterate_base (bytesOf "rm") false = bytesOf "र्म्" ∧
    transliterate_primary (bytesOf "rm") = bytesOf "र्म" ∧
    transliterate_primary (bytesOf "k") = bytesOf "क" ∧
    transliterate_primary (bytesOf "ram") = bytesOf "रं" ∧
    (runFst (bytesOf "ram")).2 = FstState.syllable ∧
    bytesOf "रं" ≠ bytesOf "राम" := by
  refine ⟨fun roman _hst hsuf => ?_, by decide, by decide, by decide, by decide,
    by decide, by decide⟩
  unfold transliterate_base
  simp only [hsuf, Bool.and_self, if_pos]

/-- Witness for the universal part of the C2 theorem at the input rm. -/
theorem c2_schwa_deletion_witness :
    transliterate_base (bytesOf "rm") true =
      (runFst (bytesOf "rm")).1.take ((runFst (bytesOf "rm")).1.length - 3) :=
  c2_schwa_deletion.1 (bytesOf "rm") (by decide) (by decide)

-- ---------------------------------------------------------------------------
-- C3
-- ---------------------------------------------------------------------------

/-- C3: the trie top-K is wrong.  Rust BinaryHeap is a max-heap, so
`heap.peek()` is the largest entry, not the smallest: the replacement
test keeps the first-seen entries, and the pruning bound compares
subtree maxima against the current heap maximum.  On the learned state
with frequencies a:1, aa:3, aaa:2 (words 0, 1, 2), the top-2 query under
prefix a returns frequencies [3, 1] - the aaa subtree (frequency 2,
below the heap maximum 3) is pruned - instead of the two greatest
frequencies [3, 2]. -/
theorem c3_top_k_uses_max_heap_as_min_heap :
    confirmChain ImeEngine.new
      [(bytesOf "a", bytesOf "X"), (bytesOf "aa", bytesOf "Y"),
       (bytesOf "aa", bytesOf "Y"), (bytesOf "aa", bytesOf "Y"),
       (bytesOf "aaa", bytesOf "Z"), (bytesOf "aaa", bytesOf "Z")] = some c3Engine ∧
    (c3Engine.trie_builder.metadata_store.map (fun m => m.frequency)) = [1, 3, 2] ∧
    c3Engine.trie_builder.get_top_k_suggestions (bytesOf "a") 2 = some [(1, 3), (0, 1)] := by
  refine ⟨by decide, by decide, by decide⟩

-- ---------------------------------------------------------------------------
-- C5 counterexample
-- ---------------------------------------------------------------------------

/-- C5 counterexample: two learning inserts of the same word under two
different keys - frequencies monotone per word, exactly as learning
produces them - leave a stale subtree maximum.  After learn(b, P) and
learn(c, P), word 0 has frequency 2, but the node of key b still stores
max_freq_in_subtree = 1: the second insert only refreshes the path of c.
The invariant fails at that node. -/
theorem c5_stale_max_after_second_variant :
    confirmChain ImeEngine.new
      [(bytesOf "b", bytesOf "P"), (bytesOf "c", bytesOf "P")] = some c5Engine ∧
    (c5Engine.trie_builder.metadata_store.map (fun m => m.frequency)) = [2] ∧
    c5Engine.trie_builder.nodes.get? 1 =
      some { children := [], word_id := some 0, max_freq_in_subtree := 1 } ∧
    ¬ trieInvariant c5Engine.trie_builder := by
  refine ⟨by decide, by decide, by decide, by decide⟩

-- ---------------------------------------------------------------------------
-- Association map lemmas
-- ---------------------------------------------------------------------------

theorem lookup_updateAssocWith_self {kappa beta : Type} [BEq kappa] [LawfulBEq kappa]
    [DecidableEq kappa] (f : beta → beta) (key : kappa) (m : List (kappa × beta)) :
    List.lookup key (updateAssocWith f key m) = (List.lookup key m).map f := by
  induction m with
  | nil => rfl
  | cons p t ih =>
    obtain ⟨k, v⟩ := p
    simp only [updateAssocWith, List.map_cons] at ih ⊢
    by_cases h : k = key
    · subst h
      rw [if_pos rfl, List.lookup_cons, List.lookup_cons, beq_self_eq_true]
      rfl
    · have hb : (key == k) = false := by
        rw [beq_eq_false_iff_ne]
        exact fun he => h he.symm
      rw [if_neg h, List.lookup_cons, List.lookup_cons, hb]
      exact ih

theorem lookup_updateAssocWith_ne {kappa beta : Type} [BEq kappa] [LawfulBEq kappa]
    [DecidableEq kappa] (f : beta → beta) (key k : kappa) (m : List (kappa × beta))
    (hne : k ≠ key) :
    List.lookup k (updateAssocWith f key m) = List.lookup k m := by
  induction m with
  | nil => rfl
  | cons p t ih =>
    obtain ⟨k0, v⟩ := p
    simp only [updateAssocWith, List.map_cons] at ih ⊢
    by_cases h : k0 = key
    · subst h
      have hb : (k == k0) = false := by
        rw [beq_eq_false_iff_ne]
        exact hne
      rw [if_pos rfl, List.lookup_cons, List.lookup_cons, hb]
      exact ih
    · rw [if_neg h, List.lookup_cons, List.lookup_cons]
      cases hb : (k == k0) with
      | true => rfl
      | false => exact ih

theorem lookup_append_single_self {kappa beta : Type} [BEq kappa] [LawfulBEq kappa]
    (key : kappa) (v : beta) (m : List (kappa × beta))
    (h : List.lookup key m = none) :
    List.lookup key (m ++ [(key, v)]) = some v := by
  induction m with
  | nil => simp [List.lookup_cons]
  | cons p t ih =>
    obtain ⟨k0, w⟩ := p
    rw [List.lookup_cons] at h
    rw [List.cons_append, List.lookup_cons]
    cases hb : (key == k0) with
    | true =>
      rw [hb] at h
      exact absurd h (by simp)
    | false =>
      rw [hb] at h
      exact ih h

theorem lookup_append_single_ne {kappa beta : Type} [BEq kappa] [LawfulBEq kappa]
    (key k : kappa) (v : beta) (m : List (kappa × beta)) (hne : k ≠ key) :
    List.lookup k (m ++ [(key, v)]) = List.lookup k m := by
  induction m with
  | nil =>
    have hb : (k == key) = false := by
      rw [beq_eq_false_iff_ne]
      exact hne
    simp [List.lookup_cons, hb]
  | cons p t ih =>
    obtain ⟨k0, w⟩ := p
    rw [List.cons_append, List.lookup_cons, List.lookup_cons]
    cases hb : (k == k0) with
    | true => rfl
    | false => exact ih

theorem srcRank_inj : ∀ a b : SuggestionSource, srcRank a = srcRank b → a = b := by
  intro a b h
  cases a <;> cases b <;> first | rfl | (simp [srcRank] at h)

theorem lexGE_refl (v : Nat × SuggestionSource) : lexGE v v :=
  Or.inr ⟨rfl, le_refl _⟩

theorem lexGE_trans {a b c : Nat × SuggestionSource} (h1 : lexGE a b) (h2 : lexGE b c) :
    lexGE a c := by
  rcases h1 with h1 | ⟨hb, hs⟩
  · rcases h2 with h2 | ⟨hc, hsc⟩
    · exact Or.inl (lt_trans h2 h1)
    · exact Or.inl (hc ▸ h1)
  · rcases h2 with h2 | ⟨hc, hsc⟩
    · exact Or.inl (hb ▸ h2)
    · exact Or.inr ⟨hc.trans hb, hsc.trans hs⟩

theorem addCandidate_eq_none (m : List (List Nat × (Nat × SuggestionSource)))
    (nep : List Nat) (s : Nat) (src : SuggestionSource)
    (h : List.lookup nep m = none) :
    addCandidate m nep s src = m ++ [(nep, (s, src))] := by
  unfold addCandidate
  rw [h]

theorem addCandidate_eq_some (m : List (List Nat × (Nat × SuggestionSource)))
    (nep : List Nat) (s s0 : Nat) (src src0 : SuggestionSource)
    (h : List.lookup nep m = some (s0, src0)) :
    addCandidate m nep s src =
      if srcRank src > srcRank src0 then updateAssocWith (fun _ => (s, src)) nep m
      else if src = src0 ∧ s > s0 then updateAssocWith (fun old => (s, old.2)) nep m
      else m := by
  unfold addCandidate
  rw [h]

theorem addCandidate_lookup_ne (m : List (List Nat × (Nat × SuggestionSource)))
    (nep k : List Nat) (s : Nat) (src : SuggestionSource) (hne : k ≠ nep) :
    List.lookup k (addCandidate m nep s src) = List.lookup k m := by
  cases h : List.lookup nep m with
  | none =>
    rw [addCandidate_eq_none m nep s src h]
    exact lookup_append_single_ne nep k _ m hne
  | some v =>
    obtain ⟨s0, src0⟩ := v
    rw [addCandidate_eq_some m nep s s0 src src0 h]
    by_cases h1 : srcRank src > srcRank src0
    · rw [if_pos h1]
      exact lookup_updateAssocWith_ne _ nep k m hne
    · rw [if_neg h1]
      by_cases h2 : src = src0 ∧ s > s0
      · rw [if_pos h2]
        exact lookup_updateAssocWith_ne _ nep k m hne
      · rw [if_neg h2]

theorem addCandidate_lookup_none (m : List (List Nat × (Nat × SuggestionSource)))
    (nep : List Nat) (s : Nat) (src : SuggestionSource)
    (h : List.lookup nep m = none) :
    List.lookup nep (addCandidate m nep s src) = some (s, src) := by
  rw [addCandidate_eq_none m nep s src h]
  exact lookup_append_single_self nep _ m h

theorem addCandidate_lookup_some (m : List (List Nat × (Nat × SuggestionSource)))
    (nep : List Nat) (s : Nat) (src : SuggestionSource) (v0 : Nat × SuggestionSource)
    (h : List.lookup nep m = some v0) :
    (List.lookup nep (addCandidate m nep s src) = some v0 ∧ lexGE v0 (s, src)) ∨
    (List.lookup nep (addCandidate m nep s src) = some (s, src) ∧ lexGE (s, src) v0) := by
  obtain ⟨s0, src0⟩ := v0
  rw [addCandidate_eq_some m nep s s0 src src0 h]
  by_cases h1 : srcRank src > srcRank src0
  · right
    constructor
    · rw [if_pos h1, lookup_updateAssocWith_self _ nep m, h]
      rfl
    · exact Or.inl h1
  · by_cases h2 : src = src0 ∧ s > s0
    · right
      constructor
      · rw [if_neg h1, if_pos h2, lookup_updateAssocWith_self _ nep m, h]
        simp [h2.1]
      · exact Or.inr ⟨h2.1.symm, le_of_lt h2.2⟩
    · left
      refine ⟨by rw [if_neg h1, if_neg h2]; exact h, ?_⟩
      rcases Nat.lt_or_ge (srcRank src) (srcRank src0) with hlt | hge
      · exact Or.inl hlt
      · have heq : src = src0 := srcRank_inj _ _ (le_antisymm (not_lt.mp h1) hge)
        have hle : s ≤ s0 := by
          by_contra hgt
          exact h2 ⟨heq, not_le.mp hgt⟩
        exact Or.inr ⟨heq, hle⟩

theorem valuesFor_append (k : List Nat) (l : List (List Nat × Nat × SuggestionSource))
    (x : List Nat × Nat × SuggestionSource) :
    valuesFor k (l ++ [x]) =
      valuesFor k l ++ (if x.1 = k then [x.2] else []) := by
  by_cases h : x.1 = k
  · simp [valuesFor, List.filter_append, h]
  · simp [valuesFor, List.filter_append, h]

theorem processCandidates_append (l : List (List Nat × Nat × SuggestionSource))
    (x : List Nat × Nat × SuggestionSource) :
    processCandidates (l ++ [x]) =
      addCandidate (processCandidates l) x.1 x.2.1 x.2.2 := by
  unfold processCandidates
  rw [List.foldl_append]
  rfl

theorem processCandidates_char (l : List (List Nat × Nat × SuggestionSource))
    (k : List Nat) :
    (∀ v, List.lookup k (processCandidates l) = some v →
      v ∈ valuesFor k l ∧ ∀ w ∈ valuesFor k l, lexGE v w) ∧
    (valuesFor k l ≠ [] → (List.lookup k (processCandidates l)).isSome) := by
  induction l using List.reverseRecOn with
  | nil =>
    constructor
    · intro v h
      simp [processCandidates, List.lookup] at h
    · intro h
      exact absurd rfl h
  | append_singleton l x ih =>
    rw [processCandidates_append, valuesFor_append]
    by_cases hx : x.1 = k
    · simp only [if_pos hx]
      subst hx
      cases h0 : List.lookup x.1 (processCandidates l) with
      | none =>
        have hemp : valuesFor x.1 l = [] := by
          by_contra hne
          have := ih.2 hne
          rw [h0] at this
          exact absurd this (by simp)
        rw [hemp]
        constructor
        · intro v hv
          rw [addCandidate_lookup_none _ _ _ _ h0] at hv
          cases hv
          constructor
          · simp
          · intro w hw
            simp at hw
            cases hw
            exact lexGE_refl _
        · intro _
          rw [addCandidate_lookup_none _ _ _ _ h0]
          rfl
      | some v0 =>
        have hmax := (ih.1 v0 h0)
        rcases addCandidate_lookup_some _ _ x.2.1 x.2.2 v0 h0 with ⟨heq, hge⟩ | ⟨heq, hge⟩
        · constructor
          · intro v hv
            rw [heq] at hv
            cases hv
            constructor
            · exact List.mem_append.mpr (Or.inl hmax.1)
            · intro w hw
              rcases List.mem_append.mp hw with hw | hw
              · exact hmax.2 w hw
              · simp at hw
                cases hw
                exact hge
          · intro _
            rw [heq]
            rfl
        · constructor
          · intro v hv
            rw [heq] at hv
            cases hv
            constructor
            · exact List.mem_append.mpr (Or.inr (by simp))
            · intro w hw
              rcases List.mem_append.mp hw with hw | hw
              · exact lexGE_trans hge (hmax.2 w hw)
              · simp at hw
                cases hw
                exact lexGE_refl _
          · intro _
            rw [heq]
            rfl
    · simp only [if_neg hx, List.append_nil]
      have hne : k ≠ x.1 := fun h => hx h.symm
      constructor
      · intro v hv
        rw [addCandidate_lookup_ne _ _ _ _ _ hne] at hv
        exact ih.1 v hv
      · intro h
        rw [addCandidate_lookup_ne _ _ _ _ _ hne]
        exact ih.2 h

/-- C4: source precedence in the candidate merge.  On a collision the
higher-rank source installs its score regardless of the scores, the same
source keeps the larger score, a lower-rank source changes nothing; and
over any batch of candidates processed by the `get_suggestions` stages,
the retained (score, source) for a key is one of that key's offers and
beats every other offer in the (source rank, then score) order. -/
theorem c4_source_precedence :
    (∀ m nep s1 src1 s2 src2, List.lookup nep m = some (s1, src1) →
      (srcRank src2 > srcRank src1 →
        List.lookup nep (addCandidate m nep s2 src2) = some (s2, src2)) ∧
      (src2 = src1 →
        List.lookup nep (addCandidate m nep s2 src2) = some (max s1 s2, src1)) ∧
      (srcRank src2 < srcRank src1 →
        List.lookup nep (addCandidate m nep s2 src2) = some (s1, src1))) ∧
    (∀ l k v, List.lookup k (processCandidates l) = some v →
      v ∈ valuesFor k l ∧ ∀ w ∈ valuesFor k l, lexGE v w) := by
  constructor
  · intro m nep s1 src1 s2 src2 h
    refine ⟨?_, ?_, ?_⟩
    · intro hgt
      rw [addCandidate_eq_some m nep s2 s1 src2 src1 h, if_pos hgt,
        lookup_updateAssocWith_self _ nep m, h]
      rfl
    · intro heq
      subst heq
      have h1 : ¬ srcRank src2 > srcRank src2 := lt_irrefl _
      rw [addCandidate_eq_some m nep s2 s1 src2 src2 h, if_neg h1]
      by_cases h2 : s2 > s1
      · rw [if_pos (⟨rfl, h2⟩ : src2 = src2 ∧ s2 > s1),
          lookup_updateAssocWith_self _ nep m, h]
        simp [Nat.max_eq_right (le_of_lt h2)]
      · have hnot : ¬ (src2 = src2 ∧ s2 > s1) := fun hc => h2 hc.2
        rw [if_neg hnot, h]
        simp [Nat.max_eq_left (not_lt.mp h2)]
    · intro hlt
      have h1 : ¬ srcRank src2 > srcRank src1 := not_lt.mpr (le_of_lt hlt)
      have h2 : ¬ (src2 = src1 ∧ s2 > s1) := by
        intro hc
        rw [hc.1] at hlt
        exact lt_irrefl _ hlt
      rw [addCandidate_eq_some m nep s2 s1 src2 src1 h, if_neg h1, if_neg h2]
      exact h
  · intro l k v h
    exact (processCandidates_char l k).1 v h

/-- Witness for C4 at a concrete collision: a Trie candidate with score 1
overrides a Literal candidate with the larger score 9. -/
theorem c4_source_precedence_witness :
    List.lookup (bytesOf "w")
      (addCandidate [(bytesOf "w", (9, SuggestionSource.literal))] (bytesOf "w") 1
        SuggestionSource.trie) = some (1, SuggestionSource.trie) :=
  ((c4_source_precedence.1 [(bytesOf "w", (9, SuggestionSource.literal))]
    (bytesOf "w") 9 SuggestionSource.literal 1 SuggestionSource.trie (by decide)).1
    (by decide))

-- ---------------------------------------------------------------------------
-- C8
-- ---------------------------------------------------------------------------

theorem log2Fuel_eq (fuel n : Nat) (h : n ≤ fuel) : log2Fuel fuel n = Nat.log2 n := by
  induction fuel generalizing n with
  | zero =>
    have hn : n = 0 := by omega
    subst hn
    rw [log2Fuel, Nat.log2]
    norm_num
  | succ k ih =>
    rw [log2Fuel, Nat.log2]
    by_cases h2 : n ≥ 2
    · rw [if_pos h2, if_pos h2, ih]
      omega
    · rw [if_neg h2, if_neg h2]

theorem log2_mono {a b : Nat} (h : a ≤ b) : Nat.log2 a ≤ Nat.log2 b := by
  rcases Nat.eq_zero_or_pos a with ha | ha
  · subst ha
    rw [Nat.log2]
    simp
  · have hb : b ≠ 0 := by omega
    rw [Nat.le_log2 hb]
    calc 2 ^ Nat.log2 a ≤ a := Nat.log2_self_le (by omega)
    _ ≤ b := h

theorem contextBoost_eq_log2 (c : Nat) : contextBoost c = Nat.log2 (c ^ 10) :=
  log2Fuel_eq _ _ (le_refl _)

/-- C8: context re-ranking.  With a non-empty window ending in p, a
suggestion with bigram count c is boosted by floor(log2(c) * 10)
(modelled exactly as floor(log2(c^10)): conjunct 5 pins the value down by
the powers of two around c^10); the boost is 0 at c = 1 and 10 at c = 2,
is monotone in c, suggestions without bigram evidence keep their score,
the result is sorted by non-increasing score, and a boosted suggestion
never drops below the score of a candidate with no bigram evidence. -/
theorem c8_bigram_boost (c : ContextModel) (p : Nat) (sugs : List (Nat × Nat))
    (hp : c.history.getLast? = some p) :
    (∀ id sc cnt, (id, sc) ∈ sugs → List.lookup (p, id) c.bigrams = some cnt →
      (id, sc + contextBoost cnt) ∈ c.rerank_suggestions sugs) ∧
    (∀ id sc, (id, sc) ∈ sugs → List.lookup (p, id) c.bigrams = none →
      (id, sc) ∈ c.rerank_suggestions sugs) ∧
    (contextBoost 1 = 0 ∧ contextBoost 2 = 10) ∧
    (∀ c1 c2 : Nat, c1 ≤ c2 → contextBoost c1 ≤ contextBoost c2) ∧
    (∀ cnt : Nat, 0 < cnt →
      2 ^ contextBoost cnt ≤ cnt ^ 10 ∧ cnt ^ 10 < 2 ^ (contextBoost cnt + 1)) ∧
    (c.rerank_suggestions sugs).Pairwise (fun x y => x.2 ≥ y.2) ∧
    (∀ sc1 cnt sc2 : Nat, sc2 ≤ sc1 → sc2 ≤ sc1 + contextBoost cnt) := by
  have hre : c.rerank_suggestions sugs =
      List.insertionSort (fun x y : Nat × Nat => x.2 ≥ y.2)
        (sugs.map (fun q =>
          match List.lookup (p, q.1) c.bigrams with
          | some count => (q.1, q.2 + contextBoost count)
          | none => q)) := by
    unfold ContextModel.rerank_suggestions
    rw [hp]
  refine ⟨?_, ?_, ⟨by decide, by decide⟩, ?_, ?_, ?_, ?_⟩
  · intro id sc cnt hmem hcnt
    rw [hre]
    refine (List.perm_insertionSort _ _).mem_iff.mpr ?_
    refine List.mem_map.mpr ⟨(id, sc), hmem, ?_⟩
    simp only [hcnt]
  · intro id sc hmem hcnt
    rw [hre]
    refine (List.perm_insertionSort _ _).mem_iff.mpr ?_
    refine List.mem_map.mpr ⟨(id, sc), hmem, ?_⟩
    simp only [hcnt]
  · intro c1 c2 hle
    rw [contextBoost_eq_log2, contextBoost_eq_log2]
    exact log2_mono (Nat.pow_le_pow_left hle 10)
  · intro cnt hpos
    have hne : cnt ^ 10 ≠ 0 := Nat.pos_iff_ne_zero.mp (Nat.pos_pow_of_pos 10 hpos)
    rw [contextBoost_eq_log2]
    exact ⟨Nat.log2_self_le hne, Nat.lt_log2_self⟩
  · rw [hre]
    exact List.sorted_insertionSort _ _
  · intro sc1 cnt sc2 hle
    exact le_trans hle (Nat.le_add_right _ _)

/-- Witness for C8: history [7], one bigram (7, 1) seen twice; the
suggestion (1, 5) is boosted to (1, 15). -/
theorem c8_bigram_boost_witness :
    (1, 5 + contextBoost 2) ∈
      (ContextModel.mk 3 [7] [((7, 1), 2)]).rerank_suggestions [(1, 5), (2, 7)] :=
  (c8_bigram_boost (ContextModel.mk 3 [7] [((7, 1), 2)]) 7 [(1, 5), (2, 7)]
    (by decide)).1 1 5 2 (by decide) (by decide)

-- ---------------------------------------------------------------------------
-- C9
-- ---------------------------------------------------------------------------

theorem mem_insertDedup {α : Type} [DecidableEq α] (l : List α) (x y : α) :
    x ∈ insertDedup l y ↔ x ∈ l ∨ x = y := by
  unfold insertDedup
  by_cases h : y ∈ l
  · rw [if_pos h]
    constructor
    · exact Or.inl
    · rintro (hx | rfl)
      · exact hx
      · exact h
  · rw [if_neg h]
    simp

theorem mem_foldl_insertDedup {α : Type} [DecidableEq α] (l acc : List α) (x : α) :
    x ∈ l.foldl insertDedup acc ↔ x ∈ acc ∨ x ∈ l := by
  induction l generalizing acc with
  | nil => simp
  | cons a t ih =>
    rw [List.foldl_cons, ih, mem_insertDedup]
    constructor
    · rintro ((hx | rfl) | hx)
      · exact Or.inl hx
      · exact Or.inr (List.mem_cons_self _ _)
      · exact Or.inr (List.mem_cons_of_mem _ hx)
    · rintro (hx | hx)
      · exact Or.inl (Or.inl hx)
      · rcases List.mem_cons.mp hx with rfl | hx
        · exact Or.inl (Or.inr rfl)
        · exact Or.inr hx

theorem bucketD_bucketInsert_mono (m : List (List Nat × List Nat))
    (k e : List Nat) (id x : Nat) (hx : x ∈ bucketD m e) :
    x ∈ bucketD (bucketInsert m k id) e := by
  unfold bucketInsert
  cases h : List.lookup k m with
  | some ids =>
    by_cases hek : e = k
    · subst hek
      unfold bucketD at hx ⊢
      rw [lookup_updateAssocWith_self _ e m, h]
      rw [h] at hx
      exact (mem_insertDedup _ _ _).mpr (Or.inl hx)
    · unfold bucketD at hx ⊢
      rw [lookup_updateAssocWith_ne _ k e m hek]
      exact hx
  | none =>
    by_cases hek : e = k
    · subst hek
      unfold bucketD at hx
      rw [h] at hx
      simp at hx
    · unfold bucketD at hx ⊢
      rw [lookup_append_single_ne k e _ m hek]
      exact hx

theorem bucketD_foldl_bucketInsert_mono (edits : List (List Nat))
    (m : List (List Nat × List Nat)) (id : Nat) (e : List Nat) (x : Nat)
    (hx : x ∈ bucketD m e) :
    x ∈ bucketD (edits.foldl (fun acc v => bucketInsert acc v id) m) e := by
  induction edits generalizing m with
  | nil => exact hx
  | cons a t ih =>
    rw [List.foldl_cons]
    exact ih _ (bucketD_bucketInsert_mono m a e id x hx)

theorem unionBuckets_mono (m m' : List (List Nat × List Nat))
    (edits : List (List Nat)) (acc acc' : List Nat)
    (hm : ∀ e x, x ∈ bucketD m e → x ∈ bucketD m' e)
    (hacc : ∀ x ∈ acc, x ∈ acc') (x : Nat)
    (hx : x ∈ unionBuckets m edits acc) : x ∈ unionBuckets m' edits acc' := by
  induction edits generalizing acc acc' with
  | nil => exact hacc x hx
  | cons a t ih =>
    unfold unionBuckets at hx ⊢
    rw [List.foldl_cons] at hx ⊢
    refine ih _ _ ?_ hx
    intro y hy
    rcases (mem_foldl_insertDedup _ _ _).mp hy with hy | hy
    · exact (mem_foldl_insertDedup _ _ _).mpr (Or.inl (hacc y hy))
    · exact (mem_foldl_insertDedup _ _ _).mpr (Or.inr (hm a y hy))

/-- C9: SymSpell lookup is monotone under add_word.  When `add_word`
succeeds, every id previously returned by any lookup is still returned
afterwards (add_word only ever inserts ids into buckets). -/
theorem c9_lookup_monotone (sp sp' : SymSpell) (w : List Nat) (id : Nat)
    (hadd : sp.add_word w id = some sp')
    (input : List Nat) (ids : List Nat) (hlook : sp.lookup input = some ids) :
    ∃ ids', sp'.lookup input = some ids' ∧ ∀ x ∈ ids, x ∈ ids' := by
  unfold SymSpell.add_word at hadd
  cases hwe : generate_edits sp.max_edit_distance w with
  | none =>
    rw [hwe] at hadd
    exact absurd hadd (by simp)
  | some wedits =>
    rw [hwe] at hadd
    simp only [Option.bind_eq_bind, Option.some_bind, Option.some.injEq] at hadd
    unfold SymSpell.lookup at hlook
    cases hie : generate_edits sp.max_edit_distance input with
    | none =>
      rw [hie] at hlook
      exact absurd hlook (by simp)
    | some edits =>
      rw [hie] at hlook
      simp only [Option.bind_eq_bind, Option.some_bind, Option.some.injEq] at hlook
      have hdel : sp'.deletes =
          wedits.foldl (fun acc v => bucketInsert acc v id) sp.deletes := by
        rw [← hadd]
      have hmax : sp'.max_edit_distance = sp.max_edit_distance := by
        rw [← hadd]
      have hmono : ∀ e x, x ∈ bucketD sp.deletes e → x ∈ bucketD sp'.deletes e := by
        intro e x hx
        rw [hdel]
        exact bucketD_foldl_bucketInsert_mono wedits sp.deletes id e x hx
      refine ⟨unionBuckets sp'.deletes edits
        ((bucketD sp'.deletes input).foldl insertDedup []), ?_, ?_⟩
      · unfold SymSpell.lookup
        rw [hmax, hie]
        rfl
      · intro x hx
        rw [← hlook] at hx
        refine unionBuckets_mono sp.deletes sp'.deletes edits _ _ hmono ?_ x hx
        intro y hy
        rcases (mem_foldl_insertDedup _ _ _).mp hy with hy | hy
        · simp at hy
        · exact (mem_foldl_insertDedup _ _ _).mpr (Or.inr (hmono input y hy))

/-- Witness for C9: a fresh index, adding the word ab; the lookup of a
previously returned nothing and still contains everything it did. -/
theorem c9_lookup_monotone_witness :
    ∃ ids', (((SymSpell.new 2).add_word (bytesOf "ab") 0).getD (SymSpell.new 2)).lookup
        (bytesOf "a") = some ids' ∧ ∀ x ∈ ([] : List Nat), x ∈ ids' :=
  c9_lookup_monotone (SymSpell.new 2)
    (((SymSpell.new 2).add_word (bytesOf "ab") 0).getD (SymSpell.new 2))
    (bytesOf "ab") 0 (by decide) (bytesOf "a") [] (by decide)

-- ---------------------------------------------------------------------------
-- C6
-- ---------------------------------------------------------------------------

theorem lookup_mem {kappa beta : Type} [BEq kappa] [LawfulBEq kappa]
    (k : kappa) (m : List (kappa × beta)) (v : beta)
    (h : List.lookup k m = some v) : (k, v) ∈ m := by
  induction m with
  | nil => simp [List.lookup] at h
  | cons p t ih =>
    rw [List.lookup_cons] at h
    cases hb : (k == p.1) with
    | true =>
      rw [hb] at h
      cases h
      have hk : k = p.1 := beq_iff_eq.mp hb
      subst hk
      exact List.mem_cons_self _ _
    | false =>
      rw [hb] at h
      exact List.mem_cons_of_mem _ (ih h)

theorem findIdx?_lt_length {alpha : Type} (p : alpha → Bool) (l : List alpha) (i : Nat)
    (h : List.findIdx? p l = some i) : i < l.length :=
  (List.findIdx?_eq_some_iff_findIdx_eq.mp h).1

theorem stringRemove_ascii (l : List Nat) (i : Nat) (hi : i < l.length)
    (h : asciiStr l) : ∃ r, stringRemove l i = some r ∧ asciiStr r := by
  obtain ⟨b, hb⟩ : ∃ b, l.get? i = some b := ⟨_, List.get?_eq_get hi⟩
  have hbl : b ∈ l := List.get?_mem hb
  have hba : b < 128 := h b hbl
  have hbc : isCharBoundaryByte b = true := by
    unfold isCharBoundaryByte
    simp
    omega
  refine ⟨l.take i ++ l.drop (i + charLen b), ?_, ?_⟩
  · simp only [stringRemove, hb, hbc, if_true]
  · intro x hx
    rcases List.mem_append.mp hx with hx | hx
    · exact h x (List.mem_of_mem_take hx)
    · exact h x (List.mem_of_mem_drop hx)

theorem foldRemove_ascii (e : List Nat) (he : asciiStr e) :
    ∀ (idxs : List Nat) (acc : List (List Nat)),
    (∀ i ∈ idxs, i < e.length) → (∀ s ∈ acc, asciiStr s) →
    ∃ acc', (idxs.foldlM
        (fun acc2 i => (stringRemove e i).map (insertDedup acc2)) acc) = some acc' ∧
      ∀ s ∈ acc', asciiStr s := by
  intro idxs
  induction idxs with
  | nil => exact fun acc _ hacc => ⟨acc, rfl, hacc⟩
  | cons i t ih =>
    intro acc hidx hacc
    obtain ⟨r, hr, hra⟩ := stringRemove_ascii e i (hidx i (List.mem_cons_self _ _)) he
    obtain ⟨acc', hacc', ha⟩ := ih (insertDedup acc r)
      (fun j hj => hidx j (List.mem_cons_of_mem _ hj))
      (by
        intro sx hs
        rcases (mem_insertDedup _ _ _).mp hs with hs | rfl
        · exact hacc sx hs
        · exact hra)
    refine ⟨acc', ?_, ha⟩
    rw [List.foldlM_cons, hr]
    exact hacc'

theorem deleteRound_ascii (cur : List (List Nat)) (h : ∀ s ∈ cur, asciiStr s) :
    ∃ next, deleteRound cur = some next ∧ ∀ s ∈ next, asciiStr s := by
  unfold deleteRound
  suffices hgen : ∀ (l : List (List Nat)) (acc : List (List Nat)),
      (∀ s ∈ l, asciiStr s) → (∀ s ∈ acc, asciiStr s) →
      ∃ next, (l.foldlM (fun a e => (List.range e.length).foldlM
        (fun acc2 i => (stringRemove e i).map (insertDedup acc2)) a) acc) = some next ∧
        ∀ s ∈ next, asciiStr s by
    exact hgen cur [] h (by simp)
  intro l
  induction l with
  | nil => exact fun acc _ hacc => ⟨acc, rfl, hacc⟩
  | cons e t ih =>
    intro acc hl hacc
    obtain ⟨acc1, h1, h1a⟩ := foldRemove_ascii e (hl e (List.mem_cons_self _ _))
      (List.range e.length) acc (fun i hi => List.mem_range.mp hi) hacc
    obtain ⟨next, hn, hna⟩ := ih acc1 (fun sx hs => hl sx (List.mem_cons_of_mem _ hs)) h1a
    refine ⟨next, ?_, hna⟩
    rw [List.foldlM_cons, h1]
    exact hn

theorem geAux_ascii (d : Nat) :
    ∀ edits current, (∀ s ∈ edits, asciiStr s) → (∀ s ∈ current, asciiStr s) →
    ∃ out, geAux d edits current = some out ∧ ∀ s ∈ out, asciiStr s := by
  induction d with
  | zero => exact fun edits _ he _ => ⟨edits, rfl, he⟩
  | succ n ih =>
    intro edits current he hc
    obtain ⟨next, hn, hna⟩ := deleteRound_ascii current hc
    obtain ⟨out, ho, hoa⟩ := ih (next.foldl insertDedup edits) next
      (by
        intro sx hs
        rcases (mem_foldl_insertDedup _ _ _).mp hs with hs | hs
        · exact he sx hs
        · exact hna sx hs)
      hna
    refine ⟨out, ?_, hoa⟩
    rw [geAux, hn]
    exact ho

theorem generate_edits_ascii (d : Nat) (w : List Nat) (h : asciiStr w) :
    ∃ edits, generate_edits d w = some edits ∧ ∀ s ∈ edits, asciiStr s := by
  unfold generate_edits
  refine geAux_ascii d [w] [w] ?_ ?_ <;>
    (intro sx hs; rcases List.mem_singleton.mp hs with rfl; exact h)

theorem symspell_lookup_ascii (sp : SymSpell) (input : List Nat) (h : asciiStr input) :
    ∃ ids, sp.lookup input = some ids := by
  obtain ⟨edits, he, _⟩ := generate_edits_ascii sp.max_edit_distance input h
  refine ⟨unionBuckets sp.deletes edits
    ((bucketD sp.deletes input).foldl insertDedup []), ?_⟩
  unfold SymSpell.lookup
  rw [he]
  rfl

theorem navigate_some (t : TrieBuilder) (hwf : WfTrie t) :
    ∀ (pre : List Nat) (idx : Nat), idx < t.nodes.length →
    ∃ r, navigate t.nodes idx pre = some r ∧
      ∀ j, r = some j → j < t.nodes.length := by
  intro pre
  induction pre with
  | nil =>
    intro idx hidx
    refine ⟨some idx, rfl, ?_⟩
    intro j hj
    cases hj
    exact hidx
  | cons b rest ih =>
    intro idx hidx
    have hget : t.nodes.get? idx = some (t.nodes.get ⟨idx, hidx⟩) := List.get?_eq_get hidx
    cases hc : List.lookup b (t.nodes.get ⟨idx, hidx⟩).children with
    | some c =>
      have hmem := lookup_mem b _ c hc
      have hcb := (hwf.2.1 idx hidx _ hmem).2
      obtain ⟨r, hr, hjb⟩ := ih c hcb
      refine ⟨r, ?_, hjb⟩
      simp only [navigate, hget, hc]
      exact hr
    | none =>
      refine ⟨none, ?_, by intro j hj; cases hj⟩
      simp only [navigate, hget, hc]

theorem dfsTerm_some (store : List WordMetadata) (k : Nat) (node : BuilderNode)
    (heap : List (Nat × Nat)) (hk : 1 ≤ k)
    (hid : ∀ id, node.word_id = some id → id < store.length) :
    ∃ heap1, dfsTerm store k node heap = some heap1 := by
  cases hwid : node.word_id with
  | none => exact ⟨heap, by simp only [dfsTerm, hwid]⟩
  | some id =>
    have hlt : id < store.length := hid id hwid
    have hgid : store.get? id = some (store.get ⟨id, hlt⟩) := List.get?_eq_get hlt
    by_cases hlen : heap.length < k
    · exact ⟨heapPush ((store.get ⟨id, hlt⟩).frequency, id) heap,
        by simp only [dfsTerm, hwid, hgid, if_pos hlen]⟩
    · have hne : heap ≠ [] := by
        intro hnil
        rw [hnil] at hlen
        simp at hlen
        omega
      obtain ⟨top, rest, rfl⟩ := List.exists_cons_of_ne_nil hne
      by_cases htop : (store.get ⟨id, hlt⟩).frequency > top.1
      · exact ⟨heapPush ((store.get ⟨id, hlt⟩).frequency, id) (top :: rest).tail,
          by simp only [dfsTerm, hwid, hgid, if_neg hlen, List.head?_cons, if_pos htop]⟩
      · exact ⟨top :: rest,
          by simp only [dfsTerm, hwid, hgid, if_neg hlen, List.head?_cons, if_neg htop]⟩

theorem dfsMin_some (k : Nat) (heap1 : List (Nat × Nat)) (hk : 1 ≤ k) :
    ∃ mf, dfsMin k heap1 = some mf := by
  by_cases hl : heap1.length = k
  · have hne : heap1 ≠ [] := by
      intro hnil
      rw [hnil] at hl
      simp at hl
      omega
    obtain ⟨top, rest, rfl⟩ := List.exists_cons_of_ne_nil hne
    exact ⟨top.1, by simp only [dfsMin, if_pos hl, List.head?_cons]⟩
  · exact ⟨0, by simp only [dfsMin, if_neg hl]⟩

theorem dfs_some (store : List WordMetadata) (nodes : List BuilderNode) (k : Nat)
    (hwf2 : ∀ i, ∀ h : i < nodes.length, ∀ p ∈ (nodes.get ⟨i, h⟩).children,
      i < p.2 ∧ p.2 < nodes.length)
    (hwf3 : ∀ n ∈ nodes, optIdLt n.word_id store.length)
    (hk : 1 ≤ k) :
    ∀ fuel idx heap, idx < nodes.length → nodes.length - idx ≤ fuel →
    ∃ h', dfs store nodes k fuel idx heap = some h' := by
  intro fuel
  induction fuel with
  | zero =>
    intro idx heap hidx hfuel
    omega
  | succ f ih =>
    intro idx heap hidx hfuel
    have hget : nodes.get? idx = some (nodes.get ⟨idx, hidx⟩) := List.get?_eq_get hidx
    obtain ⟨heap1, hheap1⟩ := dfsTerm_some store k (nodes.get ⟨idx, hidx⟩) heap hk
      (fun id hi => hwf3 _ (List.get_mem _ _ _) id hi)
    obtain ⟨minFreq, hminf⟩ := dfsMin_some k heap1 hk
    have hkids : ∀ (cs : List (Nat × Nat)) (hp : List (Nat × Nat)),
        (∀ p ∈ cs, idx < p.2 ∧ p.2 < nodes.length) →
        ∃ h', dfsKids (fun c h => dfs store nodes k f c h) nodes minFreq cs hp = some h' := by
      intro cs
      induction cs with
      | nil => exact fun hp _ => ⟨hp, rfl⟩
      | cons q rest ihq =>
        intro hp hcs
        obtain ⟨b, c⟩ := q
        have hcq := hcs (b, c) (List.mem_cons_self _ _)
        have hcb : c < nodes.length := hcq.2
        have hgc : nodes.get? c = some (nodes.get ⟨c, hcb⟩) := List.get?_eq_get hcb
        by_cases hprune : (nodes.get ⟨c, hcb⟩).max_freq_in_subtree > minFreq
        · obtain ⟨h2, hh2⟩ := ih c hp hcb (by omega)
          obtain ⟨h3, hh3⟩ := ihq h2 (fun p hps => hcs p (List.mem_cons_of_mem _ hps))
          refine ⟨h3, ?_⟩
          simp only [dfsKids, hgc, if_pos hprune, hh2]
          exact hh3
        · obtain ⟨h3, hh3⟩ := ihq hp (fun p hps => hcs p (List.mem_cons_of_mem _ hps))
          refine ⟨h3, ?_⟩
          simp only [dfsKids, hgc, if_neg hprune]
          exact hh3
    obtain ⟨h', hh'⟩ := hkids (nodes.get ⟨idx, hidx⟩).children heap1
      (fun p hps => hwf2 idx hidx p hps)
    refine ⟨h', ?_⟩
    simp only [dfs, hget, hheap1, hminf]
    exact hh'

theorem topk_some (t : TrieBuilder) (hwf : WfTrie t) (pre : List Nat) (k : Nat)
    (hk : 1 ≤ k) : ∃ r, t.get_top_k_suggestions pre k = some r := by
  have hroot : 0 < t.nodes.length := by
    cases hn : t.nodes with
    | nil => exact absurd hn hwf.1
    | cons a l => simp [hn]
  obtain ⟨r0, hr0, hjb⟩ := navigate_some t hwf pre 0 hroot
  cases r0 with
  | none => exact ⟨[], by simp only [TrieBuilder.get_top_k_suggestions, hr0]⟩
  | some idx =>
    obtain ⟨h', hh'⟩ := dfs_some t.metadata_store t.nodes k hwf.2.1 hwf.2.2 hk
      t.nodes.length idx [] (hjb idx rfl) (by omega)
    exact ⟨h'.map (fun p => (p.2, p.1)),
      by simp only [TrieBuilder.get_top_k_suggestions, hr0, hh']; rfl⟩

theorem writeBack_fold_some (store : List WordMetadata) :
    ∀ (l : List (Nat × Nat)) (acc : List (List Nat × Nat)),
    (∀ p ∈ l, p.1 < store.length) →
    ∃ res, l.foldlM (writeBack store) acc = some res := by
  intro l
  induction l with
  | nil => exact fun acc _ => ⟨acc, rfl⟩
  | cons p t ih =>
    intro acc hl
    have hp : p.1 < store.length := hl p (List.mem_cons_self _ _)
    have hg : store.get? p.1 = some (store.get ⟨p.1, hp⟩) := List.get?_eq_get hp
    obtain ⟨res, hres⟩ := ih (updateScoreByKey acc (store.get ⟨p.1, hp⟩).nepali p.2)
      (fun q hq => hl q (List.mem_cons_of_mem _ hq))
    refine ⟨res, ?_⟩
    rw [List.foldlM_cons]
    simp only [writeBack, hg]
    exact hres

theorem rerank_ids (c : ContextModel) (sugs : List (Nat × Nat)) :
    ∀ p ∈ c.rerank_suggestions sugs, ∃ q ∈ sugs, p.1 = q.1 := by
  intro p hp
  unfold ContextModel.rerank_suggestions at hp
  cases hlast : c.history.getLast? with
  | none =>
    rw [hlast] at hp
    exact ⟨p, hp, rfl⟩
  | some prev =>
    rw [hlast] at hp
    have hp2 := (List.perm_insertionSort _ _).mem_iff.mp hp
    obtain ⟨q, hq, hfq⟩ := List.mem_map.mp hp2
    refine ⟨q, hq, ?_⟩
    cases hb : List.lookup (prev, q.1) c.bigrams with
    | none =>
      rw [hb] at hfq
      rw [← hfq]
    | some cnt =>
      rw [hb] at hfq
      rw [← hfq]

/-- C6 (amended): on a well-formed trie state, an ASCII prefix and a
positive count, `get_suggestions` succeeds and returns at most `count`
suggestions in non-increasing score order; the empty prefix always
returns the empty list. -/
theorem c6_bounded_sorted_suggestions (e : ImeEngine) (pre : List Nat) (count : Nat)
    (hwf : WfTrie e.trie_builder) (hascii : asciiStr pre) (hk : 1 ≤ count) :
    (∃ l, e.get_suggestions pre count = some l ∧ l.length ≤ count ∧
      l.Pairwise (fun x y => x.2 ≥ y.2)) ∧
    (∀ (e2 : ImeEngine) (k2 : Nat), e2.get_suggestions [] k2 = some []) := by
  constructor
  · by_cases hpre : pre = []
    · subst hpre
      refine ⟨[], ?_, by simp, List.Pairwise.nil⟩
      unfold ImeEngine.get_suggestions
      rw [if_pos rfl]
    · obtain ⟨tr, htr⟩ := topk_some e.trie_builder hwf pre count hk
      obtain ⟨fz, hfz⟩ := symspell_lookup_ascii e.symspell pre hascii
      -- names for the intermediate stage values
      set cands1 := tr.foldl
        (fun m p =>
          match e.trie_builder.metadata_store.get? p.1 with
          | some meta => addCandidate m meta.nepali p.2 SuggestionSource.trie
          | none => m)
        ([] : List (List Nat × (Nat × SuggestionSource))) with hc1
      set cands2 := fz.foldl
        (fun m id =>
          match e.trie_builder.metadata_store.get? id with
          | some meta =>
            addCandidate m meta.nepali (meta.frequency - 1) SuggestionSource.fuzzy
          | none => m)
        cands1 with hc2
      set cands3 := addCandidate cands2 (transliterate_primary pre)
        PRIMARY_LITERAL_SCORE SuggestionSource.primaryLiteral with hc3
      set cands4 := (generate_candidates pre).foldl
        (fun m nep => addCandidate m nep LITERAL_BASE_SCORE SuggestionSource.literal)
        cands3 with hc4
      set allSugs := cands4.map (fun p => (p.1, p.2.1)) with hall
      set withIds := allSugs.filterMap (fun p =>
        (e.trie_builder.find_word_id_by_nepali p.1).map (fun id => (id, p.2))) with hwith
      set reranked := e.context_model.rerank_suggestions withIds with hrr
      have hvalid : ∀ p ∈ reranked, p.1 < e.trie_builder.metadata_store.length := by
        intro p hp
        obtain ⟨q, hq, hpq⟩ := rerank_ids e.context_model withIds p hp
        rw [hwith] at hq
        obtain ⟨a, _, hfa⟩ := List.mem_filterMap.mp hq
        cases hfind : e.trie_builder.find_word_id_by_nepali a.1 with
        | none => rw [hfind] at hfa; cases hfa
        | some id =>
          rw [hfind] at hfa
          cases hfa
          rw [hpq]
          exact findIdx?_lt_length _ _ _ hfind
      obtain ⟨res, hres⟩ := writeBack_fold_some e.trie_builder.metadata_store
        reranked allSugs hvalid
      refine ⟨(List.insertionSort (fun x y : List Nat × Nat => x.2 ≥ y.2) res).take count,
        ?_, ?_, ?_⟩
      · unfold ImeEngine.get_suggestions
        rw [if_neg hpre]
        simp only [Option.bind_eq_bind, htr, Option.some_bind, hfz, ← hc1, ← hc2, ← hc3,
          ← hc4, ← hall, ← hwith, ← hrr, hres]
      · rw [List.length_take]
        omega
      · exact List.Pairwise.sublist (List.take_sublist _ _)
          (List.sorted_insertionSort _ res)
  · intro e2 k2
    unfold ImeEngine.get_suggestions
    rw [if_pos rfl]

/-- Witness for the amended C6 on a fresh engine with prefix a, count 3. -/
theorem c6_bounded_sorted_suggestions_witness :
    ∃ l, ImeEngine.new.get_suggestions (bytesOf "a") 3 = some l ∧ l.length ≤ 3 ∧
      l.Pairwise (fun x y => x.2 ≥ y.2) :=
  (c6_bounded_sorted_suggestions ImeEngine.new (bytesOf "a") 3
    (by decide) (by decide) (by decide)).1

/-- C6 counterexample: as stated the claim fails.  A non-ASCII prefix
panics inside SymSpell delete generation even on a fresh engine; a
count of 0 panics on the empty-heap peek once the trie navigation
succeeds; and a dangling trie word id panics on metadata indexing in the
DFS. -/
theorem c6_counterexample_panics :
    ImeEngine.new.get_suggestions (bytesOf "क") 3 = none ∧
    c5Engine.get_suggestions (bytesOf "b") 0 = none ∧
    ({ ImeEngine.new with trie_builder :=
      { nodes := [{ children := [(97, 1)], word_id := none, max_freq_in_subtree := 1 },
                  { children := [], word_id := some 5, max_freq_in_subtree := 1 }],
        metadata_store := [] } } : ImeEngine).get_suggestions (bytesOf "a") 1 = none := by
  refine ⟨by decide, by decide, by decide⟩

theorem decU64_enc (n : Nat) (h : n < U64LIM) (r : List Nat) :
    decU64 (encU64 n ++ r) = some (n, r) := by
  unfold U64LIM at h
  simp only [encU64, List.cons_append, List.nil_append, decU64]
  norm_num at h ⊢
  omega

theorem decU8_enc (n : Nat) (r : List Nat) : decU8 (encU8 n ++ r) = some (n, r) := rfl

theorem decBytes_enc (s : List Nat) (h : s.length < U64LIM) (r : List Nat) :
    decBytes (encBytes s ++ r) = some (s, r) := by
  unfold decBytes encBytes
  rw [List.append_assoc, decU64_enc _ h]
  simp only [Option.bind_eq_bind, Option.some_bind]
  rw [if_pos (by simp)]
  rw [List.take_left, List.drop_left]

theorem decOpt_enc {alpha : Type} (dec : List Nat → Option (alpha × List Nat))
    (enc : alpha → List Nat) (o : Option alpha)
    (h : ∀ a, o = some a → ∀ r, dec (enc a ++ r) = some (a, r)) (r : List Nat) :
    decOpt dec (encOpt enc o ++ r) = some (o, r) := by
  cases o with
  | none => rfl
  | some a =>
    simp only [encOpt, List.cons_append, decOpt]
    rw [h a rfl r]
    rfl

theorem decN_enc {alpha : Type} (dec : List Nat → Option (alpha × List Nat))
    (enc : alpha → List Nat) (l : List alpha)
    (h : ∀ a ∈ l, ∀ r, dec (enc a ++ r) = some (a, r)) (r : List Nat) :
    decN dec l.length ((l.map enc).flatten ++ r) = some (l, r) := by
  induction l with
  | nil => rfl
  | cons a t ih =>
    simp only [List.map_cons, List.flatten_cons, List.length_cons, List.append_assoc, decN]
    rw [h a (List.mem_cons_self _ _)]
    simp only [Option.bind_eq_bind, Option.some_bind]
    rw [ih (fun x hx => h x (List.mem_cons_of_mem _ hx))]
    rfl

theorem decList_enc {alpha : Type} (dec : List Nat → Option (alpha × List Nat))
    (enc : alpha → List Nat) (l : List alpha) (hlen : l.length < U64LIM)
    (h : ∀ a ∈ l, ∀ r, dec (enc a ++ r) = some (a, r)) (r : List Nat) :
    decList dec (encList enc l ++ r) = some (l, r) := by
  unfold decList encList
  rw [List.append_assoc, decU64_enc _ hlen]
  simp only [Option.bind_eq_bind, Option.some_bind]
  exact decN_enc dec enc l h r

theorem decPairU64_enc (p : Nat × Nat) (h1 : p.1 < U64LIM) (h2 : p.2 < U64LIM)
    (r : List Nat) : decPairU64 (encPairU64 p ++ r) = some (p, r) := by
  unfold decPairU64 encPairU64
  rw [List.append_assoc, decU64_enc _ h1]
  simp only [Option.bind_eq_bind, Option.some_bind]
  rw [decU64_enc _ h2]
  rfl

theorem decChild_enc (p : Nat × Nat) (h2 : p.2 < U64LIM) (r : List Nat) :
    decChild (encChild p ++ r) = some (p, r) := by
  unfold decChild encChild encU8
  simp only [List.cons_append, List.nil_append, decU8, Option.bind_eq_bind,
    Option.some_bind]
  rw [decU64_enc _ h2]
  rfl

theorem decNode_enc (n : BuilderNode) (h : BoundedNode n) (r : List Nat) :
    decNode (encNode n ++ r) = some (n, r) := by
  obtain ⟨h1, h2, h3, h4⟩ := h
  unfold decNode encNode
  rw [List.append_assoc, List.append_assoc,
    decList_enc decChild encChild n.children h1 (fun a ha rr => decChild_enc a (h2 a ha) rr)]
  simp only [Option.bind_eq_bind, Option.some_bind]
  rw [decOpt_enc decU64 encU64 n.word_id (fun a ha rr => decU64_enc a (h3 a ha) rr)]
  simp only [Option.some_bind]
  rw [decU64_enc _ h4]
  rfl

theorem decMeta_enc (m : WordMetadata) (h : BoundedMeta m) (r : List Nat) :
    decMeta (encMeta m ++ r) = some (m, r) := by
  obtain ⟨h1, h2, h3, h4⟩ := h
  unfold decMeta encMeta
  rw [List.append_assoc, List.append_assoc, decBytes_enc _ h1]
  simp only [Option.bind_eq_bind, Option.some_bind]
  rw [decU64_enc _ h2]
  simp only [Option.some_bind]
  rw [decList_enc decBytes encBytes m.variants h3 (fun a ha rr => decBytes_enc a (h4 a ha) rr)]
  rfl

theorem decTrie_enc (t : TrieBuilder) (h : BoundedTrie t) (r : List Nat) :
    decTrie (encTrie t ++ r) = some (t, r) := by
  obtain ⟨h1, h2, h3, h4⟩ := h
  unfold decTrie encTrie
  rw [List.append_assoc,
    decList_enc decNode encNode t.nodes h1 (fun a ha rr => decNode_enc a (h2 a ha) rr)]
  simp only [Option.bind_eq_bind, Option.some_bind]
  rw [decList_enc decMeta encMeta t.metadata_store h3
    (fun a ha rr => decMeta_enc a (h4 a ha) rr)]
  rfl

theorem decBigram_enc (q : (Nat × Nat) × Nat) (h1 : q.1.1 < U64LIM)
    (h2 : q.1.2 < U64LIM) (h3 : q.2 < U64LIM) (r : List Nat) :
    decBigram ((encPairU64 q.1 ++ encU64 q.2) ++ r) = some (q, r) := by
  unfold decBigram
  rw [List.append_assoc, decPairU64_enc _ h1 h2]
  simp only [Option.bind_eq_bind, Option.some_bind]
  rw [decU64_enc _ h3]
  rfl

theorem decContext_enc (c : ContextModel) (h : BoundedContext c) (r : List Nat) :
    decContext (encContext c ++ r) = some (c, r) := by
  obtain ⟨h1, h2, h3, h4, h5⟩ := h
  unfold decContext encContext
  rw [List.append_assoc, List.append_assoc, decU64_enc _ h1]
  simp only [Option.bind_eq_bind, Option.some_bind]
  rw [decList_enc decU64 encU64 c.history h2 (fun a ha rr => decU64_enc a (h3 a ha) rr)]
  simp only [Option.some_bind]
  rw [decList_enc decBigram (fun q => encPairU64 q.1 ++ encU64 q.2) c.bigrams h4
    (fun a ha rr => decBigram_enc a (h5 a ha).1 (h5 a ha).2.1 (h5 a ha).2.2 rr)]
  rfl

theorem decDelete_enc (p : List Nat × List Nat) (h1 : p.1.length < U64LIM)
    (h2 : p.2.length < U64LIM) (h3 : ∀ id ∈ p.2, id < U64LIM) (r : List Nat) :
    decDelete ((encBytes p.1 ++ encList encU64 p.2) ++ r) = some (p, r) := by
  unfold decDelete
  rw [List.append_assoc, decBytes_enc _ h1]
  simp only [Option.bind_eq_bind, Option.some_bind]
  rw [decList_enc decU64 encU64 p.2 h2 (fun a ha rr => decU64_enc a (h3 a ha) rr)]
  rfl

theorem decSymSpell_enc (sp : SymSpell) (h : BoundedSymSpell sp) (r : List Nat) :
    decSymSpell (encSymSpell sp ++ r) = some (sp, r) := by
  obtain ⟨h1, h2, h3⟩ := h
  unfold decSymSpell encSymSpell
  rw [List.append_assoc,
    decList_enc decDelete (fun p => encBytes p.1 ++ encList encU64 p.2) sp.deletes h1
      (fun a ha rr => decDelete_enc a (h2 a ha).1 (h2 a ha).2.1 (h2 a ha).2.2 rr)]
  simp only [Option.bind_eq_bind, Option.some_bind]
  rw [decU64_enc _ h3]
  rfl

theorem load_save (e : ImeEngine) (h : BoundedEngine e) :
    load_from_disk (save_to_disk e) =
      some (ImeEngine.mk e.trie_builder e.context_model e.symspell none) := by
  obtain ⟨h1, h2, h3⟩ := h
  unfold load_from_disk save_to_disk
  rw [List.append_assoc, decTrie_enc _ h1]
  simp only [Option.bind_eq_bind, Option.some_bind]
  rw [decContext_enc _ h2]
  simp only [Option.some_bind]
  have hsp : encSymSpell e.symspell = encSymSpell e.symspell ++ [] := by simp
  rw [hsp, decSymSpell_enc _ h3]
  simp only [Option.some_bind]
  simp

/-- C7: persistence round trip.  Loading the bytes written by save
restores every persisted component (trie with its embedded metadata
store, context model, SymSpell index) exactly; only the dictionary path
and the stateless parts are reset to their fresh values, as in the
source. -/
theorem c7_save_load_roundtrip (e : ImeEngine) (h : BoundedEngine e) :
    ∃ e2, load_from_disk (save_to_disk e) = some e2 ∧
      e2.trie_builder = e.trie_builder ∧
      e2.context_model = e.context_model ∧
      e2.symspell = e.symspell := by
  refine ⟨_, load_save e h, rfl, rfl, rfl⟩

/-- Witness for C7 on the state after two confirmations. -/
theorem c7_save_load_roundtrip_witness :
    ∃ e2, load_from_disk (save_to_disk c5Engine) = some e2 ∧
      e2.trie_builder = c5Engine.trie_builder ∧
      e2.context_model = c5Engine.context_model ∧
      e2.symspell = c5Engine.symspell :=
  c7_save_load_roundtrip c5Engine (by decide)

-- ---------------------------------------------------------------------------
-- C10 : word-id validity of reachable states
-- ---------------------------------------------------------------------------

theorem set_self_of_get? {alpha : Type} (l : List alpha) (i : Nat) (v : alpha)
    (h : l.get? i = some v) : l.set i v = l := by
  induction l generalizing i with
  | nil => rfl
  | cons a t ih =>
    cases i with
    | zero =>
      simp only [List.get?_cons_zero, Option.some.injEq] at h
      rw [h]
      rfl
    | succ j =>
      simp only [List.get?_cons_succ] at h
      simp [List.set_cons_succ, ih j h]

/-- `descend` only adds fresh non-terminal nodes and updates children:
the word-id column gains trailing `none` entries. -/
theorem descend_wordIds (key : List Nat) :
    ∀ nodes idx path n1 endIdx path1,
    descend nodes idx path key = some (n1, endIdx, path1) →
    ∃ k, n1.map BuilderNode.word_id =
      nodes.map BuilderNode.word_id ++ List.replicate k none := by
  induction key with
  | nil =>
    intro nodes idx path n1 endIdx path1 h
    unfold descend at h
    cases h
    exact ⟨0, by simp⟩
  | cons b rest ih =>
    intro nodes idx path n1 endIdx path1 h
    unfold descend at h
    cases hg : nodes.get? idx with
    | none =>
      simp only [hg] at h
      cases h
    | some node =>
      simp only [hg] at h
      cases hc : List.lookup b node.children with
      | some c =>
        simp only [hc] at h
        exact ih nodes c _ n1 endIdx path1 h
      | none =>
        simp only [hc] at h
        have hlt : idx < nodes.length := (List.get?_eq_some.mp hg).1
        have hga : (nodes ++ [BuilderNode.new]).get? idx = some node := by
          rw [List.get?_append hlt]
          exact hg
        rw [List.modify_eq_set_get?, hga] at h
        simp only [Option.map_some, Option.getD_some] at h
        obtain ⟨k, hk⟩ := ih _ _ _ n1 endIdx path1 h
        refine ⟨k + 1, ?_⟩
        rw [hk, List.map_set]
        have hset : ((nodes ++ [BuilderNode.new]).map BuilderNode.word_id).set idx
            ({ node with children := node.children ++ [(b, nodes.length)] }).word_id =
            (nodes ++ [BuilderNode.new]).map BuilderNode.word_id := by
          refine set_self_of_get? _ idx _ ?_
          rw [List.get?_map, hga]
          rfl
        rw [hset, List.map_append]
        simp [List.replicate_succ, List.append_assoc]
        rfl

/-- `propagate` only rewrites the stored subtree maxima. -/
theorem propagate_wordIds (store : List WordMetadata) :
    ∀ (path : List Nat) (nodes n' : List BuilderNode),
    propagate store nodes path = some n' →
    n'.map BuilderNode.word_id = nodes.map BuilderNode.word_id := by
  intro path
  induction path with
  | nil =>
    intro nodes n' h
    unfold propagate at h
    cases h
    rfl
  | cons idx rest ih =>
    intro nodes n' h
    unfold propagate at h
    cases hg : nodes.get? idx with
    | none =>
      simp only [hg] at h
      cases h
    | some node =>
      obtain ⟨cs, wid, mx⟩ := node
      simp only [hg] at h
      cases wid with
      | some id =>
        cases hs : store.get? id with
        | none =>
          simp only [hs, Option.map_none'] at h
          cases h
        | some meta =>
          simp only [hs, Option.map_some'] at h
          cases hcm : childrenMax nodes cs with
          | none =>
            simp only [hcm] at h
            cases h
          | some cmax =>
            simp only [hcm] at h
            by_cases hgt : max meta.frequency cmax > mx
            · rw [if_pos hgt] at h
              have hrec := ih _ _ h
              rw [hrec, List.map_set]
              refine set_self_of_get? _ idx _ ?_
              rw [List.get?_map, hg]
              rfl
            · rw [if_neg hgt] at h
              cases h
              rfl
      | none =>
        cases hcm : childrenMax nodes cs with
        | none =>
          simp only [hcm] at h
          cases h
        | some cmax =>
          simp only [hcm] at h
          by_cases hgt : max 0 cmax > mx
          · rw [if_pos hgt] at h
            have hrec := ih _ _ h
            rw [hrec, List.map_set]
            refine set_self_of_get? _ idx _ ?_
            rw [List.get?_map, hg]
            rfl
          · rw [if_neg hgt] at h
            cases h
            rfl

/-- `insert` leaves the metadata store untouched, and its effect on the
word-id column is: fresh `none` entries, then one position set to the
inserted id. -/
theorem insert_wordIds (t : TrieBuilder) (key : List Nat) (wordId freq : Nat)
    (t' : TrieBuilder) (h : t.insert key wordId freq = some t') :
    t'.metadata_store = t.metadata_store ∧
    ∃ k endIdx, t'.nodes.map BuilderNode.word_id =
      (t.nodes.map BuilderNode.word_id ++ List.replicate k none).set endIdx
        (some wordId) := by
  unfold TrieBuilder.insert at h
  cases hd : descend t.nodes 0 [0] key with
  | none =>
    simp only [hd, Option.bind_eq_bind, Option.none_bind] at h
    cases h
  | some trip =>
    obtain ⟨nodes1, endIdx, path⟩ := trip
    simp only [hd, Option.bind_eq_bind, Option.some_bind] at h
    cases hg : nodes1.get? endIdx with
    | none =>
      simp only [hg] at h
      cases h
    | some endNode =>
      simp only [hg] at h
      cases hp : propagate t.metadata_store
          (nodes1.set endIdx { endNode with word_id := some wordId }) path.reverse with
      | none =>
        simp only [hp, Option.bind_eq_bind, Option.none_bind] at h
        cases h
      | some nodes3 =>
        simp only [hp, Option.bind_eq_bind, Option.some_bind, Option.some.injEq] at h
        obtain ⟨k, hk⟩ := descend_wordIds key t.nodes 0 [0] nodes1 endIdx path hd
        refine ⟨by rw [← h], k, endIdx, ?_⟩
        have h3 := propagate_wordIds t.metadata_store path.reverse _ _ hp
        have hn : t'.nodes = nodes3 := by rw [← h]
        rw [hn, h3, List.map_set, hk]

/-- Validity of the word-id column after an insert. -/
theorem insert_wids_valid (a : List (Option Nat)) (k endIdx w len : Nat)
    (ha : ∀ o ∈ a, optIdLt o len) (hw : w < len) :
    ∀ o ∈ (a ++ List.replicate k none).set endIdx (some w), optIdLt o len := by
  intro o ho
  rcases List.mem_or_eq_of_mem_set ho with ho | rfl
  · rcases List.mem_append.mp ho with ho | ho
    · exact ha o ho
    · have : o = none := List.eq_of_mem_replicate ho
      subst this
      intro id hid
      cases hid
  · intro id hid
    cases hid
    exact hw

theorem bucketInsert_valid (m : List (List Nat × List Nat)) (k : List Nat)
    (id len : Nat) (hm : symIdsValid m len) (hid : id < len) :
    symIdsValid (bucketInsert m k id) len := by
  intro p hp x hx
  unfold bucketInsert at hp
  cases h : List.lookup k m with
  | some ids =>
    rw [h] at hp
    unfold updateAssocWith at hp
    obtain ⟨p0, hp0, hfp⟩ := List.mem_map.mp hp
    by_cases hk : p0.1 = k
    · rw [if_pos hk] at hfp
      subst hfp
      simp only at hx
      rcases (mem_insertDedup _ _ _).mp hx with hx | rfl
      · exact hm p0 hp0 x hx
      · exact hid
    · rw [if_neg hk] at hfp
      subst hfp
      exact hm p0 hp0 x hx
  | none =>
    rw [h] at hp
    rcases List.mem_append.mp hp with hp | hp
    · exact hm p hp x hx
    · rcases List.mem_singleton.mp hp with rfl
      rcases List.mem_singleton.mp hx with rfl
      exact hid

theorem foldl_bucketInsert_valid (edits : List (List Nat)) (id len : Nat) :
    ∀ m, symIdsValid m len → id < len →
    symIdsValid (edits.foldl (fun acc v => bucketInsert acc v id) m) len := by
  induction edits with
  | nil => exact fun m hm _ => hm
  | cons a t ih =>
    intro m hm hid
    rw [List.foldl_cons]
    exact ih _ (bucketInsert_valid m a id len hm hid) hid

theorem addWord_valid (sp sp' : SymSpell) (w : List Nat) (id len : Nat)
    (h : sp.add_word w id = some sp') (hm : symIdsValid sp.deletes len)
    (hid : id < len) : symIdsValid sp'.deletes len := by
  unfold SymSpell.add_word at h
  cases he : generate_edits sp.max_edit_distance w with
  | none =>
    rw [he] at h
    exact absurd h (by simp)
  | some edits =>
    rw [he] at h
    simp only [Option.bind_eq_bind, Option.some_bind, Option.some.injEq] at h
    have : sp'.deletes = edits.foldl (fun acc v => bucketInsert acc v id) sp.deletes := by
      rw [← h]
    rw [this]
    exact foldl_bucketInsert_valid edits id len sp.deletes hm hid

theorem learnSym_valid (sp s' : SymSpell) (roman nepali : List Nat)
    (id len : Nat) (b1 b2 : Bool) (h : learnSym sp roman nepali id b1 b2 = some s')
    (hm : symIdsValid sp.deletes len) (hid : id < len) :
    symIdsValid s'.deletes len := by
  unfold learnSym at h
  cases b1 with
  | false =>
    simp only [Bool.false_eq_true, if_false] at h
    cases h
    exact hm
  | true =>
    simp only [if_true] at h
    cases ha : sp.add_word roman id with
    | none =>
      rw [ha] at h
      exact absurd h (by simp)
    | some spA =>
      rw [ha] at h
      simp only [Option.bind_eq_bind, Option.some_bind] at h
      have hA := addWord_valid sp spA roman id len ha hm hid
      cases b2 with
      | false =>
        simp only [Bool.false_eq_true, if_false] at h
        cases h
        exact hA
      | true =>
        simp only [if_true] at h
        exact addWord_valid spA s' nepali id len h hA hid

theorem ctx_addWord_valid (c : ContextModel) (id len : Nat)
    (hh : ∀ x ∈ c.history, x < len)
    (hb : ∀ q ∈ c.bigrams, q.1.1 < len ∧ q.1.2 < len) (hid : id < len) :
    (∀ x ∈ (c.add_word id).history, x < len) ∧
    (∀ q ∈ (c.add_word id).bigrams, q.1.1 < len ∧ q.1.2 < len) := by
  unfold ContextModel.add_word
  cases hl : c.history.getLast? with
  | none =>
    simp only [hl]
    constructor
    · intro x hx
      rcases List.mem_append.mp hx with hx | hx
      · split at hx
        · exact hh x (List.mem_of_mem_tail hx)
        · exact hh x hx
      · rcases List.mem_singleton.mp hx with rfl
        exact hid
    · exact hb
  | some prev =>
    have hprev : prev < len := hh prev (List.mem_of_mem_getLast? hl)
    simp only [hl]
    constructor
    · intro x hx
      rcases List.mem_append.mp hx with hx | hx
      · split at hx
        · exact hh x (List.mem_of_mem_tail hx)
        · exact hh x hx
      · rcases List.mem_singleton.mp hx with rfl
        exact hid
    · intro q hq
      unfold bumpBigram at hq
      cases hlk : List.lookup (prev, id) c.bigrams with
      | some v =>
        rw [hlk] at hq
        unfold updateAssocWith at hq
        obtain ⟨q0, hq0, hfq⟩ := List.mem_map.mp hq
        by_cases hk : q0.1 = (prev, id)
        · rw [if_pos hk] at hfq
          subst hfq
          rw [hk]
          exact ⟨hprev, hid⟩
        · rw [if_neg hk] at hfq
          subst hfq
          exact hb q0 hq0
      | none =>
        rw [hlk] at hq
        rcases List.mem_append.mp hq with hq | hq
        · exact hb q hq
        · rcases List.mem_singleton.mp hq with rfl
          exact ⟨hprev, hid⟩

theorem get_or_create_spec (t : TrieBuilder) (nep : List Nat) :
    (t.get_or_create_metadata nep).1 <
      (t.get_or_create_metadata nep).2.metadata_store.length ∧
    t.metadata_store.length ≤
      (t.get_or_create_metadata nep).2.metadata_store.length ∧
    (∀ i, i < t.metadata_store.length →
      (t.get_or_create_metadata nep).2.metadata_store.get? i = t.metadata_store.get? i) ∧
    (t.get_or_create_metadata nep).2.nodes = t.nodes := by
  cases hf : t.find_word_id_by_nepali nep with
  | some id =>
    have hgc : t.get_or_create_metadata nep = (id, t) := by
      unfold TrieBuilder.get_or_create_metadata
      rw [hf]
    rw [hgc]
    exact ⟨findIdx?_lt_length _ _ _ hf, le_refl _, fun i _ => rfl, rfl⟩
  | none =>
    have hgc : t.get_or_create_metadata nep = (t.metadata_store.length,
        { t with metadata_store :=
          t.metadata_store ++ [{ nepali := nep, frequency := 0, variants := [] }] }) := by
      unfold TrieBuilder.get_or_create_metadata
      rw [hf]
    rw [hgc]
    refine ⟨by simp, by simp, ?_, rfl⟩
    intro i hi
    exact List.get?_append hi

/-- The combined effect of one successful `learn` call on the parts that
carry word ids. -/
theorem learn_spec (trie : TrieBuilder) (ctx : ContextModel) (sp : SymSpell)
    (roman nepali : List Nat) (t' : TrieBuilder) (c' : ContextModel) (s' : SymSpell)
    (h : learn trie ctx sp roman nepali = some (t', c', s')) :
    ∃ id, id < t'.metadata_store.length ∧
      trie.metadata_store.length ≤ t'.metadata_store.length ∧
      (∀ i, i < trie.metadata_store.length →
        (t'.metadata_store.get? i).map WordMetadata.nepali =
          (trie.metadata_store.get? i).map WordMetadata.nepali) ∧
      (∃ k endIdx, t'.nodes.map BuilderNode.word_id =
        (trie.nodes.map BuilderNode.word_id ++ List.replicate k none).set endIdx
          (some id)) ∧
      c' = ctx.add_word id ∧
      (∀ len, t'.metadata_store.length ≤ len → symIdsValid sp.deletes len →
        symIdsValid s'.deletes len) := by
  unfold learn at h
  obtain ⟨hlt, hle, hpres, hnodes⟩ := get_or_create_spec trie nepali
  cases hm : (trie.get_or_create_metadata nepali).2.metadata_store.get?
      (trie.get_or_create_metadata nepali).1 with
  | none =>
    simp only [hm] at h
    exact Option.noConfusion h
  | some meta0 =>
    simp only [hm, Option.bind_eq_bind] at h
    cases hsym : learnSym sp roman nepali (trie.get_or_create_metadata nepali).1
        (decide (roman ∉ meta0.variants))
        (decide ((learnMeta meta0 roman).variants.length = 1)) with
    | none =>
      rw [hsym] at h
      exact absurd h (by simp)
    | some sp1 =>
      rw [hsym] at h
      simp only [Option.some_bind] at h
      cases hins : TrieBuilder.insert
          { (trie.get_or_create_metadata nepali).2 with
            metadata_store := (trie.get_or_create_metadata nepali).2.metadata_store.set
              (trie.get_or_create_metadata nepali).1 (learnMeta meta0 roman) }
          roman (trie.get_or_create_metadata nepali).1
          (learnMeta meta0 roman).frequency with
      | none =>
        rw [hins] at h
        exact absurd h (by simp)
      | some trie3 =>
        rw [hins] at h
        simp only [Option.some_bind, Option.some.injEq, Prod.mk.injEq] at h
        obtain ⟨ht3, hc2, hs1⟩ := h
        obtain ⟨hstore3, k, endIdx, hwids⟩ := insert_wordIds _ roman _ _ trie3 hins
        have hset : trie3.metadata_store =
            (trie.get_or_create_metadata nepali).2.metadata_store.set
              (trie.get_or_create_metadata nepali).1 (learnMeta meta0 roman) := hstore3
        have hlen3 : trie3.metadata_store.length =
            (trie.get_or_create_metadata nepali).2.metadata_store.length := by
          rw [hset, List.length_set]
        have hwids2 : trie3.nodes.map BuilderNode.word_id =
            ((trie.get_or_create_metadata nepali).2.nodes.map BuilderNode.word_id ++
              List.replicate k none).set endIdx
              (some (trie.get_or_create_metadata nepali).1) := hwids
        rw [hnodes] at hwids2
        refine ⟨(trie.get_or_create_metadata nepali).1, ?_, ?_, ?_, ?_, ?_, ?_⟩
        · rw [← ht3, hlen3]
          exact hlt
        · rw [← ht3, hlen3]
          exact hle
        · intro i hi
          rw [← ht3, hset, List.get?_set]
          by_cases hieq : (trie.get_or_create_metadata nepali).1 = i
          · subst hieq
            rw [if_pos rfl, hm]
            have hnep : (learnMeta meta0 roman).nepali = meta0.nepali := by
              unfold learnMeta
              simp only []
              split <;> rfl
            simp only [Option.map_eq_map, Option.map_some']
            rw [hnep, ← hpres _ hi, hm]
            rfl
          · rw [if_neg hieq]
            exact congrArg _ (hpres i hi)
        · exact ⟨k, endIdx, by rw [← ht3]; exact hwids2⟩
        · rw [← hc2]
        · intro len hlen hvalid
          rw [← ht3] at hlen
          rw [← hs1]
          refine learnSym_valid sp sp1 roman nepali
            (trie.get_or_create_metadata nepali).1 len _ _ hsym hvalid ?_
          omega

theorem foldl_max_map {α : Type} (f : α → Nat) (l : List α) (a : Nat) :
    l.foldl (fun acc x => max acc (f x)) a = max a ((l.map f).foldr max 0) := by
  induction l generalizing a with
  | nil => simp
  | cons x t ih =>
    simp only [List.foldl_cons, List.map_cons, List.foldr_cons]
    rw [ih, max_assoc]

theorem childrenMaxAux (store : List WordMetadata) (nodes : List BuilderNode) :
    ∀ (cs : List (Nat × Nat)), (∀ p ∈ cs, p.2 < nodes.length) → ∀ a,
    List.foldlM
      (fun acc p => match nodes.get? p.2 with
        | some n => some (max acc n.max_freq_in_subtree)
        | none => none) a cs
      = some (cs.foldl (fun acc p => max acc (childMaxD ⟨nodes, store⟩ p.2)) a) := by
  intro cs
  induction cs with
  | nil => intro _ a; rfl
  | cons p t ih =>
    intro h a
    have hp : p.2 < nodes.length := h p (List.mem_cons_self _ _)
    have hn : nodes.get? p.2 = some (nodes.get ⟨p.2, hp⟩) := List.get?_eq_get hp
    rw [List.foldlM_cons]
    simp only [hn, Option.bind_eq_bind, Option.some_bind]
    rw [ih (fun q hq => h q (List.mem_cons_of_mem _ hq))]
    rw [List.foldl_cons]
    have hcd : childMaxD ⟨nodes, store⟩ p.2 =
        (nodes.get ⟨p.2, hp⟩).max_freq_in_subtree := by
      unfold childMaxD
      simp only [hn, Option.map_some', Option.getD_some]
    rw [hcd]

theorem childrenMax_some (store : List WordMetadata) (nodes : List BuilderNode)
    (cs : List (Nat × Nat)) (h : ∀ p ∈ cs, p.2 < nodes.length) :
    childrenMax nodes cs =
      some ((cs.map (fun p => childMaxD ⟨nodes, store⟩ p.2)).foldr max 0) := by
  unfold childrenMax
  rw [childrenMaxAux store nodes cs h 0]
  rw [foldl_max_map]
  rw [Nat.zero_max]

theorem termOpt_some (store : List WordMetadata) (n : BuilderNode)
    (h : optIdLt n.word_id store.length) :
    (match n.word_id with
      | some id => (store.get? id).map (fun m => m.frequency)
      | none => some 0) = some (termFreqOf store n) := by
  cases hw : n.word_id with
  | none => simp only [termFreqOf, hw]
  | some wid =>
    have hlt : wid < store.length := h wid hw
    have hg : store.get? wid = some (store.get ⟨wid, hlt⟩) := List.get?_eq_get hlt
    simp only [termFreqOf, hw, hg, Option.map_some', Option.getD_some]

theorem childMaxD_set_ne (store : List WordMetadata) (nodes : List BuilderNode)
    (idx : Nat) (u : BuilderNode) (c : Nat) (h : c ≠ idx) :
    childMaxD ⟨nodes.set idx u, store⟩ c = childMaxD ⟨nodes, store⟩ c := by
  unfold childMaxD
  simp only []
  rw [List.get?_set, if_neg (fun he => h he.symm)]

theorem nodeLocalMax_set_of_notMem (store : List WordMetadata)
    (nodes : List BuilderNode) (idx : Nat) (u : BuilderNode) (n : BuilderNode)
    (h : idx ∉ childIdxs n) :
    nodeLocalMax ⟨nodes.set idx u, store⟩ n = nodeLocalMax ⟨nodes, store⟩ n := by
  unfold nodeLocalMax
  congr 1
  refine congrArg (fun l => List.foldr max 0 l) (List.map_congr_left ?_)
  intro p hp
  refine childMaxD_set_ne store nodes idx u p.2 ?_
  intro he
  exact h (he ▸ List.mem_map_of_mem (fun q => q.2) hp)

theorem foldr_max_mono {α : Type} (f g : α → Nat) (l : List α)
    (h : ∀ x ∈ l, f x ≤ g x) :
    (l.map f).foldr max 0 ≤ (l.map g).foldr max 0 := by
  induction l with
  | nil => exact le_refl 0
  | cons x t ih =>
    simp only [List.map_cons, List.foldr_cons]
    exact max_le_max (h x (List.mem_cons_self x t))
      (ih fun y hy => h y (List.mem_cons_of_mem _ hy))

theorem nodeLocalMax_set_ge (store : List WordMetadata) (nodes : List BuilderNode)
    (idx : Nat) (node u : BuilderNode) (hget : nodes.get? idx = some node)
    (hmax : node.max_freq_in_subtree ≤ u.max_freq_in_subtree) (n : BuilderNode) :
    nodeLocalMax ⟨nodes, store⟩ n ≤ nodeLocalMax ⟨nodes.set idx u, store⟩ n := by
  unfold nodeLocalMax
  refine max_le_max (le_refl _) (foldr_max_mono _ _ _ ?_)
  intro p _
  by_cases hc : p.2 = idx
  · rw [hc]
    unfold childMaxD
    simp only [hget, List.get?_set, if_pos rfl, Option.map_some', Option.getD_some]
    exact hmax
  · rw [childMaxD_set_ne store nodes idx u p.2 hc]

theorem propagate_walk (store : List WordMetadata) :
    ∀ (q : List Nat) (nodes : List BuilderNode),
    q.Nodup →
    inEdgesOk nodes q →
    nodesOk store nodes q →
    (∀ j, (∀ v, q.get? 0 = some v → j ≠ v) → localEq store nodes j) →
    (∀ v, q.get? 0 = some v → ∀ n ∈ nodes.get? v,
      n.max_freq_in_subtree ≤ nodeLocalMax ⟨nodes, store⟩ n) →
    ∃ nodes2, propagate store nodes q = some nodes2 ∧
      ∀ j, localEq store nodes2 j := by
  intro q
  induction q with
  | nil =>
    intro nodes _ _ _ h4 _
    exact ⟨nodes, rfl, fun j => h4 j (fun v hv => by cases hv)⟩
  | cons idx rest ih =>
    intro nodes hnd hedge hok h4 h5
    obtain ⟨hnotin, hndrest⟩ := List.nodup_cons.mp hnd
    obtain ⟨hlt, hval⟩ := hok idx (List.mem_cons_self _ _)
    obtain ⟨nd, hnode⟩ : ∃ nd, nodes.get? idx = some nd :=
      ⟨_, List.get?_eq_get hlt⟩
    obtain ⟨hwv, hcv⟩ := hval nd hnode
    have hterm := termOpt_some store nd hwv
    have hcm := childrenMax_some store nodes nd.children
      (fun p hp => hcv p.2 (List.mem_map_of_mem _ hp))
    set F := ((nd.children.map (fun p => childMaxD ⟨nodes, store⟩ p.2)).foldr max 0)
      with hF
    have hm_eq : max (termFreqOf store nd) F = nodeLocalMax ⟨nodes, store⟩ nd := rfl
    have hstep : propagate store nodes (idx :: rest) =
        if max (termFreqOf store nd) F > nd.max_freq_in_subtree then
          propagate store
            (nodes.set idx
              { nd with max_freq_in_subtree := max (termFreqOf store nd) F })
            rest
        else some nodes := by
      simp only [propagate, hnode, hterm, hcm]
    by_cases hgt : max (termFreqOf store nd) F > nd.max_freq_in_subtree
    · rw [hstep, if_pos hgt]
      set ndU : BuilderNode :=
        { nd with max_freq_in_subtree := max (termFreqOf store nd) F } with hndU
      set nodes1 := nodes.set idx ndU with hnodes1
      have hlen1 : nodes1.length = nodes.length := List.length_set nodes idx ndU
      have hget1 : ∀ j, nodes1.get? j =
          if idx = j then some ndU else nodes.get? j := by
        intro j
        rw [hnodes1, List.get?_set]
        by_cases hj : idx = j
        · rw [if_pos hj, if_pos hj, ← hj, hnode]
          rfl
        · rw [if_neg hj, if_neg hj]
      have hidx_not_child_nd : idx ∉ childIdxs nd := by
        intro hmem
        have hcon := hedge 0 (Nat.succ_pos _) idx hlt idx rfl nd hnode hmem
        exact hnotin (List.get?_mem hcon)
      have hval_new : localEq store nodes1 idx := by
        intro n hn
        rw [hget1 idx, if_pos rfl] at hn
        have hn2 : n = ndU := by cases hn; rfl
        subst hn2
        rw [hnodes1, nodeLocalMax_set_of_notMem store nodes idx ndU ndU
          hidx_not_child_nd]
        rfl
      have h4' : ∀ j, (∀ v, rest.get? 0 = some v → j ≠ v) →
          localEq store nodes1 j := by
        intro j hj
        by_cases hji : j = idx
        · subst hji
          exact hval_new
        · intro n hn
          rw [hget1 j, if_neg (fun h => hji h.symm)] at hn
          have hidx_not_child_n : idx ∉ childIdxs n := by
            intro hmem
            by_cases hjlen : j < nodes.length
            · have hcon := hedge 0 (Nat.succ_pos _) j hjlen idx rfl n hn hmem
              exact hj j hcon rfl
            · rw [List.get?_eq_none.mpr (le_of_not_lt hjlen)] at hn
              cases hn
          have heq := h4 j (fun v hv => by
            simp only [List.get?_cons_zero, Option.some.injEq] at hv
            exact hv ▸ hji) n hn
          rw [heq, hnodes1,
            nodeLocalMax_set_of_notMem store nodes idx ndU n hidx_not_child_n]
      have hok' : nodesOk store nodes1 rest := by
        intro i hi
        obtain ⟨hi1, hi2⟩ := hok i (List.mem_cons_of_mem _ hi)
        have hne : idx ≠ i := fun he => hnotin (he ▸ hi)
        refine ⟨by rw [hlen1]; exact hi1, ?_⟩
        intro n hn
        rw [hget1 i, if_neg hne] at hn
        obtain ⟨ha, hb⟩ := hi2 n hn
        exact ⟨ha, fun c hc => by rw [hlen1]; exact hb c hc⟩
      have hedge' : inEdgesOk nodes1 rest := by
        intro i hi j hj v hv n hn hvc
        rw [hlen1] at hj
        have hvq : v ∈ (idx :: rest).get? (i + 1) := by
          rw [List.get?_cons_succ]
          exact hv
        by_cases hji : idx = j
        · subst hji
          rw [hget1 idx, if_pos rfl] at hn
          have hn2 : n = ndU := by cases hn; rfl
          subst hn2
          have hvc2 : v ∈ childIdxs nd := hvc
          have hcon := hedge (i + 1) (Nat.succ_lt_succ hi) idx hlt v hvq nd
            hnode hvc2
          rw [List.get?_cons_succ] at hcon
          exact hcon
        · rw [hget1 j, if_neg hji] at hn
          have hcon := hedge (i + 1) (Nat.succ_lt_succ hi) j hj v hvq n hn hvc
          rw [List.get?_cons_succ] at hcon
          exact hcon
      have h5' : ∀ v, rest.get? 0 = some v → ∀ n ∈ nodes1.get? v,
          n.max_freq_in_subtree ≤ nodeLocalMax ⟨nodes1, store⟩ n := by
        intro v hv n hn
        have hvne : idx ≠ v := fun he => hnotin (he ▸ List.get?_mem hv)
        rw [hget1 v, if_neg hvne] at hn
        have heq := h4 v (fun v0 hv0 => by
          simp only [List.get?_cons_zero, Option.some.injEq] at hv0
          subst hv0
          exact fun he => hvne he.symm) n hn
        rw [heq, hnodes1]
        exact nodeLocalMax_set_ge store nodes idx nd ndU hnode
          (le_of_lt hgt) n
      exact ih nodes1 hndrest hedge' hok' h4' h5'
    · rw [hstep, if_neg hgt]
      refine ⟨nodes, rfl, ?_⟩
      intro j
      by_cases hji : j = idx
      · subst hji
        intro n hn
        have hn2 : n = nd := by
          rw [hnode] at hn
          cases hn
          rfl
        rw [hn2]
        have hle := h5 _ rfl nd hnode
        have hge : nodeLocalMax ⟨nodes, store⟩ nd ≤ nd.max_freq_in_subtree := by
          rw [← hm_eq]
          exact le_of_not_lt hgt
        exact le_antisymm hle hge
      · exact h4 j (fun v hv => by
          simp only [List.get?_cons_zero, Option.some.injEq] at hv
          exact hv ▸ hji)

theorem childMaxD_store_irrel (nodes : List BuilderNode)
    (s1 s2 : List WordMetadata) (c : Nat) :
    childMaxD ⟨nodes, s1⟩ c = childMaxD ⟨nodes, s2⟩ c := rfl

theorem nodeLocalMax_store_congr (nodes : List BuilderNode)
    (s1 s2 : List WordMetadata) (n : BuilderNode)
    (h : termFreqOf s1 n = termFreqOf s2 n) :
    nodeLocalMax ⟨nodes, s1⟩ n = nodeLocalMax ⟨nodes, s2⟩ n := by
  unfold nodeLocalMax
  rw [h]
  rfl

/-- C5 amended: the early-exit upward propagation of `insert` does
preserve the subtree-max invariant on the step learning actually
performs for a single-variant word: re-inserting a word along its
existing key path (the sole terminal of that word, reached by a
duplicate-free path whose nodes have no other in-edges) after its
stored frequency was raised.  The counterexample shows the original
claim fails once the same word gains a second key. -/
theorem c5_insert_keeps_subtree_max_single_variant (t : TrieBuilder) (key : List Nat)
    (id : Nat) (meta2 : WordMetadata) (f : Nat) (endIdx : Nat) (p : List Nat)
    (h_inv : trieInvariant t)
    (h_desc : descend t.nodes 0 [0] key = some (t.nodes, endIdx, p))
    (h_last : p.getLast? = some endIdx)
    (h_nodup : p.Nodup)
    (h_edges : inEdgesOk t.nodes p.reverse)
    (h_ok : nodesOk (t.metadata_store.set id meta2) t.nodes p.reverse)
    (h_leaf : (t.nodes.get? endIdx).map BuilderNode.word_id = some (some id))
    (h_uniq : ∀ j, j < t.nodes.length → ∀ n ∈ t.nodes.get? j,
      n.word_id = some id → j = endIdx)
    (h_freq : ((t.metadata_store.get? id).map (fun m => m.frequency)).getD 0 ≤
      meta2.frequency) :
    ∃ t2, TrieBuilder.insert ⟨t.nodes, t.metadata_store.set id meta2⟩ key id f
        = some t2 ∧ trieInvariant t2 := by
  obtain ⟨endNode, hend, hwid⟩ : ∃ nd, t.nodes.get? endIdx = some nd ∧
      nd.word_id = some id := by
    cases hg : t.nodes.get? endIdx with
    | none =>
      rw [hg] at h_leaf
      cases h_leaf
    | some nd =>
      rw [hg, Option.map_some'] at h_leaf
      exact ⟨nd, rfl, Option.some.inj h_leaf⟩
  have hsetid : { endNode with word_id := some id } = endNode := by
    obtain ⟨c, w, m⟩ := endNode
    simp only at hwid
    rw [hwid]
  have hnodes2 : t.nodes.set endIdx { endNode with word_id := some id } =
      t.nodes := by
    rw [hsetid]
    exact set_self_of_get? t.nodes endIdx endNode hend
  have hq0 : p.reverse.get? 0 = some endIdx := by
    rw [List.get?_zero, List.head?_reverse]
    exact h_last
  have hterm_irrel : ∀ j n, t.nodes.get? j = some n → j ≠ endIdx →
      termFreqOf (t.metadata_store.set id meta2) n =
        termFreqOf t.metadata_store n := by
    intro j n hn hjne
    cases hw : n.word_id with
    | none => simp only [termFreqOf, hw]
    | some wid =>
      have hwid_ne : id ≠ wid := by
        intro he
        refine hjne (h_uniq j ?_ n hn (by rw [hw, he]))
        by_contra hge
        rw [List.get?_eq_none.mpr (le_of_not_lt hge)] at hn
        cases hn
      simp only [termFreqOf, hw]
      rw [List.get?_set, if_neg hwid_ne]
  have hinit4 : ∀ j, (∀ v, p.reverse.get? 0 = some v → j ≠ v) →
      localEq (t.metadata_store.set id meta2) t.nodes j := by
    intro j hj n hn
    have hjne : j ≠ endIdx := hj endIdx hq0
    have hold : n.max_freq_in_subtree =
        nodeLocalMax ⟨t.nodes, t.metadata_store⟩ n :=
      h_inv n (List.get?_mem hn)
    rw [hold]
    exact (nodeLocalMax_store_congr t.nodes _ _ n
      (hterm_irrel j n hn hjne)).symm
  have hterm_leaf : termFreqOf t.metadata_store endNode ≤
      termFreqOf (t.metadata_store.set id meta2) endNode := by
    simp only [termFreqOf, hwid]
    by_cases hidlt : id < t.metadata_store.length
    · have hsome : (t.metadata_store.set id meta2).get? id = some meta2 := by
        rw [List.get?_set, if_pos rfl, List.get?_eq_get hidlt]
        rfl
      rw [hsome, Option.map_some', Option.getD_some]
      exact h_freq
    · have hnone : t.metadata_store.get? id = none :=
        List.get?_eq_none.mpr (le_of_not_lt hidlt)
      have hnone2 : (t.metadata_store.set id meta2).get? id = none := by
        rw [List.get?_set, if_pos rfl, hnone]
        rfl
      rw [hnone, hnone2]
  have hinit5 : ∀ v, p.reverse.get? 0 = some v → ∀ n ∈ t.nodes.get? v,
      n.max_freq_in_subtree ≤
        nodeLocalMax ⟨t.nodes, t.metadata_store.set id meta2⟩ n := by
    intro v hv n hn
    rw [hq0] at hv
    have hveq : v = endIdx := by cases hv; rfl
    rw [hveq, hend] at hn
    have hneq : n = endNode := by cases hn; rfl
    rw [hneq]
    have hold : endNode.max_freq_in_subtree =
        nodeLocalMax ⟨t.nodes, t.metadata_store⟩ endNode :=
      h_inv endNode (List.get?_mem hend)
    rw [hold]
    unfold nodeLocalMax
    exact max_le_max hterm_leaf (le_refl _)
  obtain ⟨nodes2, hprop, hloc⟩ := propagate_walk (t.metadata_store.set id meta2)
    p.reverse t.nodes (List.nodup_reverse.mpr h_nodup) h_edges h_ok hinit4 hinit5
  refine ⟨⟨nodes2, t.metadata_store.set id meta2⟩, ?_, ?_⟩
  · unfold TrieBuilder.insert
    rw [show (⟨t.nodes, t.metadata_store.set id meta2⟩ : TrieBuilder).nodes =
      t.nodes from rfl]
    rw [h_desc]
    simp only [Option.bind_eq_bind, Option.some_bind]
    simp only [hend]
    rw [hnodes2]
    rw [hprop]
    rfl
  · intro n hmem
    obtain ⟨pos, hpos⟩ := List.get?_of_mem hmem
    exact hloc pos n hpos

theorem optIdLt_mono (o : Option Nat) (l1 l2 : Nat) (h : optIdLt o l1)
    (hl : l1 ≤ l2) : optIdLt o l2 :=
  fun id hid => lt_of_lt_of_le (h id hid) hl

theorem symIdsValid_mono (m : List (List Nat × List Nat)) (l1 l2 : Nat)
    (h : symIdsValid m l1) (hl : l1 ≤ l2) : symIdsValid m l2 :=
  fun p hp id hid => lt_of_lt_of_le (h p hp id hid) hl

/-- The effect of one successful `user_confirms` call: the metadata store
only grows, existing words keep their Devanagari form, and id-validity
is preserved. -/
theorem user_confirms_spec (e e2 : ImeEngine) (roman nepali : List Nat)
    (h : e.user_confirms roman nepali = some e2) :
    e.trie_builder.metadata_store.length ≤
      e2.trie_builder.metadata_store.length ∧
    (∀ i, i < e.trie_builder.metadata_store.length →
      (e2.trie_builder.metadata_store.get? i).map WordMetadata.nepali =
        (e.trie_builder.metadata_store.get? i).map WordMetadata.nepali) ∧
    (ValidIds e → ValidIds e2) := by
  unfold ImeEngine.user_confirms at h
  by_cases hemp : roman = [] ∨ nepali = []
  · rw [if_pos hemp] at h
    obtain rfl : e = e2 := by cases h; rfl
    exact ⟨le_refl _, fun i _ => rfl, id⟩
  · rw [if_neg hemp] at h
    cases hl : learn e.trie_builder e.context_model e.symspell roman nepali with
    | none =>
      rw [hl] at h
      exact absurd h (by simp)
    | some r =>
      rw [hl] at h
      simp only [Option.map_some', Option.some.injEq] at h
      obtain ⟨t', c', s'⟩ := r
      obtain ⟨id, hid, hle, hpres, hwids, hc, hsym⟩ :=
        learn_spec _ _ _ _ _ _ _ _ hl
      subst h
      refine ⟨hle, hpres, ?_⟩
      intro hv
      unfold ValidIds at hv
      obtain ⟨hv1, hv2, hv3, hv4⟩ := hv
      unfold ValidIds
      refine ⟨?_, ?_, ?_, ?_⟩
      · intro n hn
        obtain ⟨k, endIdx, hw⟩ := hwids
        have hmem : n.word_id ∈ t'.nodes.map BuilderNode.word_id :=
          List.mem_map_of_mem _ hn
        rw [hw] at hmem
        refine insert_wids_valid _ k endIdx id _ ?_ hid _ hmem
        intro o ho
        obtain ⟨n0, hn0, rfl⟩ := List.mem_map.mp ho
        exact optIdLt_mono _ _ _ (hv1 n0 hn0) hle
      · exact hsym _ (le_refl _) (symIdsValid_mono _ _ _ hv2 hle)
      · intro x hx
        have hx2 : x ∈ (e.context_model.add_word id).history := by
          rw [← hc]
          exact hx
        exact (ctx_addWord_valid e.context_model id _
          (fun y hy => lt_of_lt_of_le (hv3 y hy) hle)
          (fun q hq => ⟨lt_of_lt_of_le (hv4 q hq).1 hle,
            lt_of_lt_of_le (hv4 q hq).2 hle⟩) hid).1 x hx2
      · intro q hq
        have hq2 : q ∈ (e.context_model.add_word id).bigrams := by
          rw [← hc]
          exact hq
        exact (ctx_addWord_valid e.context_model id _
          (fun y hy => lt_of_lt_of_le (hv3 y hy) hle)
          (fun q' hq' => ⟨lt_of_lt_of_le (hv4 q' hq').1 hle,
            lt_of_lt_of_le (hv4 q' hq').2 hle⟩) hid).2 q hq2

/-- C10: every WordId stored in a trie node, a SymSpell bucket, or the
context history and bigram keys of a reachable engine state is a valid
index into the metadata store, and a successful confirmation only grows
the metadata store while preserving every existing word's Devanagari
form. -/
theorem c10_wordids_valid_and_store_append_only :
    (∀ e, Reachable e → ValidIds e) ∧
    (∀ (e e2 : ImeEngine) (roman nepali : List Nat),
      e.user_confirms roman nepali = some e2 →
      e.trie_builder.metadata_store.length ≤
        e2.trie_builder.metadata_store.length ∧
      ∀ i, i < e.trie_builder.metadata_store.length →
        (e2.trie_builder.metadata_store.get? i).map WordMetadata.nepali =
          (e.trie_builder.metadata_store.get? i).map WordMetadata.nepali) := by
  constructor
  · intro e h
    induction h with
    | base => decide
    | confirm e e2 roman nepali hr heq ih =>
      exact (user_confirms_spec e e2 roman nepali heq).2.2 ih
    | loadSave e e2 hr hB heq ih =>
      rw [load_save e hB] at heq
      obtain rfl : ImeEngine.mk e.trie_builder e.context_model e.symspell none
          = e2 := by
        cases heq
        rfl
      obtain ⟨v1, v2, v3, v4⟩ := ih
      exact ⟨v1, v2, v3, v4⟩
  · intro e e2 roman nepali heq
    exact ⟨(user_confirms_spec e e2 roman nepali heq).1,
      (user_confirms_spec e e2 roman nepali heq).2.1⟩

/-- Witness for C10 at a fresh engine and at a concrete successful
confirmation. -/
theorem c10_wordids_valid_and_store_append_only_witness :
    ValidIds ImeEngine.new ∧
    ImeEngine.new.user_confirms (bytesOf "ne") (bytesOf "ne") =
      some confirmNe ∧
    ImeEngine.new.trie_builder.metadata_store.length ≤
      confirmNe.trie_builder.metadata_store.length :=
  ⟨c10_wordids_valid_and_store_append_only.1 ImeEngine.new Reachable.base,
   by decide,
   (c10_wordids_valid_and_store_append_only.2 ImeEngine.new confirmNe
     (bytesOf "ne") (bytesOf "ne") (by decide)).1⟩

/-- Witness for the amended C5 theorem on the state one confirmation of
(b, P) produces. -/
theorem c5_insert_keeps_subtree_max_single_variant_witness :
    trieInvariant c5StepTrie ∧
    ∃ t2, TrieBuilder.insert
        ⟨c5StepTrie.nodes, c5StepTrie.metadata_store.set 0 c5StepMeta⟩
        (bytesOf "b") 0 2 = some t2 ∧ trieInvariant t2 :=
  ⟨by decide,
   c5_insert_keeps_subtree_max_single_variant c5StepTrie (bytesOf "b") 0
     c5StepMeta 2 1 [0, 1]
     (by decide) (by decide) (by decide) (by decide) (by decide) (by decide)
     (by decide) (by decide) (by decide)⟩

end Akshar

